import Mathlib

/-!
Verification development for the FOEDUS transaction-commit core
(repository lsgxeva/foedus_code).

The definitions below are a shallow embedding of the C++ sources under
src/foedus-core, chiefly src/foedus/xct/xct_manager_pimpl.cpp,
src/foedus/snapshot/log_gleaner_impl.cpp and
src/foedus/storage/hash/hash_metadata.cpp.

A few supporting classes (Epoch, XctId, Xct, ThreadLogBuffer, the MCS key
lock) are declared in headers that are not part of this source drop; those
are modelled from the specification document, as marked in their doc
comments.  Everything from xct_manager_pimpl.cpp itself is translated
directly from the C++ code.

Concurrency is modelled sequentially: the commit path of a single worker
executes atomically against a memory state; interference by other threads
is represented, where a claim needs it, by explicit environment
parameters (the storage manager's track_moved_record, the log manager,
and the interference step of the partitioner registry).
-/

namespace Foedus

/-- Addresses of lockable owner words, of dual page pointers and of page
version words.  Pointers in the C++ code become abstract addresses. -/
abbrev Addr := Nat

abbrev StorageId := Nat

/-- Error codes returned by the XctManager API (error_code.hpp values are
not in the source drop; only the constructors used by the embedded code
are modelled, plus an opaqueCode constructor standing for every other
value the log manager may return). -/
inductive ErrorCode where
  | ok
  | xctNoXct
  | xctRaceAbort
  | xctAlreadyRunning
  | timedOut
  | opaqueCode (n : Nat)
deriving Repr, DecidableEq

/-! ### Epoch

Modelled from the spec: epoch.hpp is not under src/.  "Epoch. Integer in
[1, 2^32-1]; 0 is the sentinel invalid.  Comparison is cyclic:
a.before(b) iff (b - a) mod 2^32 in (0, 2^31).  Operations: one_more(),
store_max(other), is_valid()." -/

structure Epoch where
  value : Nat
deriving Repr, DecidableEq, Inhabited

/-- Modelled from the spec: the invalid sentinel epoch, value 0. -/
def Epoch.invalid : Epoch := ⟨0⟩

/-- Modelled from the spec: an epoch is valid iff nonzero. -/
def Epoch.is_valid (e : Epoch) : Bool := e.value ≠ 0

/-- Modelled from the spec: cyclic comparison,
a.before(b) iff (b - a) mod 2^32 lies strictly between 0 and 2^31. -/
def Epoch.before (a b : Epoch) : Bool :=
  let d := (b.value + 2 ^ 32 - a.value % 2 ^ 32) % 2 ^ 32
  0 < d && d < 2 ^ 31

/-- Modelled from the spec: operator< on epochs is the cyclic before. -/
def Epoch.lt (a b : Epoch) : Bool := a.before b

/-- Modelled from the spec: wrap-around increment on the 32-bit value,
skipping the invalid sentinel 0. -/
def Epoch.one_more (e : Epoch) : Epoch :=
  if e.value = 2 ^ 32 - 1 then ⟨1⟩ else ⟨e.value + 1⟩

/-- Modelled from the spec: store_max keeps the larger (by cyclic before)
of the two epochs, ignoring an invalid argument. -/
def Epoch.store_max (self other : Epoch) : Epoch :=
  if other.is_valid && (!self.is_valid || self.before other) then other else self

/-- Modelled from the spec: the initial durable epoch used to seed
max_xct_id in precommit_xct_readwrite (constant from epoch.hpp, which is
not under src/; the first valid epoch is 1). -/
def kEpochInitialDurable : Epoch := ⟨1⟩

/-! ### XctId and the lockable owner word

Modelled from the spec: xct_id.hpp is not under src/.  "XctId. Packed
word {epoch: 32, ordinal: 24, status: 8}.  Status bits: KEY_LOCKED,
BEING_WRITTEN, DELETED, MOVED."  The KEY_LOCKED information lives in the
MCS lock word next to the XctId (the code reads owner->lock_ and
owner->xct_id_ as two members of the lockable owner word), so the
lockable owner is modelled as a pair of an XctId and an MCS lock. -/

structure XctId where
  epoch : Epoch
  ordinal : Nat
  being_written : Bool
  deleted : Bool
  moved : Bool
deriving Repr, DecidableEq, Inhabited

/-- Modelled from the spec: XctId.set(epoch, ordinal) stamps epoch and
ordinal and clears the status bits. -/
def XctId.set (e : Epoch) (o : Nat) : XctId :=
  { epoch := e, ordinal := o, being_written := false, deleted := false, moved := false }

/-- Modelled from the spec: ordering predicate before(other) uses
lexicographic (epoch, ordinal). -/
def XctId.before (a b : XctId) : Bool :=
  a.epoch.before b.epoch || (a.epoch = b.epoch && a.ordinal < b.ordinal)

/-- Modelled from the spec: store_max keeps the larger XctId under the
lexicographic (epoch, ordinal) order. -/
def XctId.store_max (self other : XctId) : XctId :=
  if self.before other then other else self

/-- Modelled from the spec: clears all status bits, keeping epoch and
ordinal. -/
def XctId.clear_status_bits (x : XctId) : XctId :=
  { x with being_written := false, deleted := false, moved := false }

/-- Modelled from the spec: sets the DELETED status bit. -/
def XctId.set_deleted (x : XctId) : XctId := { x with deleted := true }

/-- Modelled from the spec: the MCS key lock word; block 0 is reserved
for "no lock held", so the model only tracks whether the lock is held. -/
structure McsLock where
  locked : Bool
deriving Repr, DecidableEq, Inhabited

/-- Modelled from the spec: the lockable owner word a write-set entry
points to, made of the record's XctId and its MCS key lock. -/
structure LockableXctId where
  xct_id : XctId
  lock : McsLock
deriving Repr, DecidableEq, Inhabited

/-- owner->is_moved() delegates to the MOVED bit of the owner's XctId. -/
def LockableXctId.is_moved (o : LockableXctId) : Bool := o.xct_id.moved

/-- owner->is_keylocked() delegates to the MCS lock word. -/
def LockableXctId.is_keylocked (o : LockableXctId) : Bool := o.lock.locked

/-- The shared memory of owner words, indexed by address. -/
abbrev Memory := Addr → LockableXctId

def Memory.set (m : Memory) (a : Addr) (v : LockableXctId) : Memory :=
  fun x => if x = a then v else m x

/-! ### Log entries and access-set entries -/

/-- A redo log record in the thread log buffer, as far as the commit path
observes it: its header's XctId stamp and whether its log type is one of
the delete codes (kLogCodeHashDelete / kLogCodeMasstreeDelete). -/
structure LogEntry where
  is_delete : Bool
  header_xct_id : XctId
deriving Repr, DecidableEq, Inhabited

/-- Modelled from the spec: read-set entry
(storage_id, owner_id_address, observed_owner_id). -/
structure XctAccess where
  storage_id : StorageId
  owner_id_address : Addr
  observed_owner_id : XctId
deriving Repr, DecidableEq, Inhabited

/-- Modelled from the spec: write-set entry (storage_id,
owner_id_address, log_entry_ref, mcs_block); the payload address is not
observed by any property below and is omitted. -/
structure WriteXctAccess where
  storage_id : StorageId
  owner_id_address : Addr
  log_entry : LogEntry
  mcs_block : Nat
deriving Repr, DecidableEq, Inhabited

/-- WriteXctAccess::compare sorts the write set by owner-id address
ascending (std::sort is not stable; mergeSort refines that
nondeterminism deterministically). -/
def WriteXctAccess.compare (a b : WriteXctAccess) : Bool :=
  a.owner_id_address ≤ b.owner_id_address

/-- Modelled from the spec: lock-free write-set entry used by append-only
storages; no owner word, no lock. -/
structure LockFreeWriteXctAccess where
  storage_id : StorageId
  log_entry : LogEntry
deriving Repr, DecidableEq, Inhabited

/-- Modelled from the spec: pointer-set entry
(address_of_dual_pointer, observed_word). -/
structure PointerAccess where
  address : Addr
  observed_word : Nat
deriving Repr, DecidableEq, Inhabited

/-- Modelled from the spec: page-version-set entry
(address_of_page_version, observed_version). -/
structure PageVersionAccess where
  address : Addr
  observed_status : Nat
deriving Repr, DecidableEq, Inhabited

end Foedus

namespace Foedus

/-! ### Thread log buffer, transaction context, world state

Modelled from the spec: thread_log_buffer_impl.hpp and xct.hpp are not
under src/.  Only the operations the commit path invokes are modelled. -/

/-- Modelled from the spec: the per-thread log buffer, reduced to the two
offsets the commit path observes.  discard_current_xct_log moves the tail
back to the committed offset; publish_committed_log moves the committed
offset up to the tail. -/
structure ThreadLogBuffer where
  offset_committed : Nat
  offset_tail : Nat
deriving Repr, DecidableEq

def ThreadLogBuffer.discard_current_xct_log (b : ThreadLogBuffer) : ThreadLogBuffer :=
  { b with offset_tail := b.offset_committed }

def ThreadLogBuffer.publish_committed_log (b : ThreadLogBuffer) (_e : Epoch) : ThreadLogBuffer :=
  { b with offset_committed := b.offset_tail }

/-- Modelled from the spec: the per-worker transaction context (Xct):
read-set, write-set, lock-free write-set, pointer-set, page-version-set,
the MCS block counter and the last issued XctId. -/
structure Xct where
  active : Bool
  read_set : List XctAccess
  write_set : List WriteXctAccess
  lock_free_write_set : List LockFreeWriteXctAccess
  pointer_set : List PointerAccess
  page_version_set : List PageVersionAccess
  mcs_block_current : Nat
  id : XctId
deriving Repr, DecidableEq

def Xct.is_active (x : Xct) : Bool := x.active

/-- Modelled from the spec: the read-only fast path is taken when the
transaction wrote nothing (both write sets empty). -/
def Xct.is_read_only (x : Xct) : Bool :=
  x.write_set.isEmpty && x.lock_free_write_set.isEmpty

/-- Modelled from the spec: begin_xct activates with empty access sets
and zero MCS block counter. -/
def Xct.activate (x : Xct) : Xct :=
  { x with active := true, read_set := [], write_set := [],
           lock_free_write_set := [], pointer_set := [], page_version_set := [],
           mcs_block_current := 0 }

def Xct.deactivate (x : Xct) : Xct := { x with active := false }

/-- Modelled from the spec: issue_next_id(max_xct_id, commit_epoch)
produces the new id with epoch = commit_epoch, ordinal =
max(max_xct_id.ordinal+1, last_local_ordinal+1) and cleared status bits;
the last local ordinal of an epoch the worker has not issued in yet
is 0. -/
def Xct.issue_next_id (x : Xct) (max_xct_id : XctId) (commit_epoch : Epoch) : Xct :=
  let last_local_ordinal := if x.id.epoch = commit_epoch then x.id.ordinal else 0
  { x with id := XctId.set commit_epoch (max (max_xct_id.ordinal + 1) (last_local_ordinal + 1)) }

/-- The storage-manager interface the commit path consumes:
track_moved_record for a write-set entry (rewrites the owner address,
None when the record went too far away) and the XctId-only overload for
read-set resolution. -/
structure StorageEnv where
  track_moved_record_write : StorageId → WriteXctAccess → Option Addr
  track_moved_record_read : StorageId → Addr → Addr

/-- The log-manager interface the commit path consumes. -/
structure LogEnv where
  wait_until_durable : Epoch → Int → ErrorCode
  durable_global_epoch : Epoch

/-- The state a worker's commit path runs against. -/
structure World where
  mem : Memory
  ptr_mem : Addr → Nat
  page_ver_mem : Addr → Nat
  xct : Xct
  log_buffer : ThreadLogBuffer
  current_global_epoch : Epoch

/-- Observable events of the locking and apply phases: lock
acquisitions and releases and owner-word finalizations, tagged with the
position of the triggering write-set entry. -/
inductive Ev where
  | acquire (i : Nat) (a : Addr) (block : Nat)
  | release (i : Nat) (a : Addr) (block : Nat)
  | finalize (i : Nat) (a : Addr) (id : XctId)
  | applyRec (i : Nat) (a : Addr)
deriving Repr, DecidableEq

/-- The thread-local state threaded through Phase 1. -/
structure LockSt where
  mem : Memory
  mcs_block_current : Nat
  max_xct_id : XctId
  trace : List Ev

/-! ### Phase 1 — precommit_xct_lock (xct_manager_pimpl.cpp lines 258-345) -/

/-- The moved-record tracking pre-pass: for each write-set entry whose
owner word carries MOVED, track_moved_record rewrites its owner address;
a tracking failure stops the pass and fails the whole lock phase. -/
def track_pre_pass (senv : StorageEnv) (mem : Memory) :
    List WriteXctAccess → Bool × List WriteXctAccess
  | [] => (true, [])
  | w :: rest =>
    if (mem w.owner_id_address).is_moved then
      match senv.track_moved_record_write w.storage_id w with
      | none => (false, w :: rest)
      | some a2 =>
        let w2 := { w with owner_id_address := a2 }
        let r := track_pre_pass senv mem rest
        (r.1, w2 :: r.2)
    else
      let r := track_pre_pass senv mem rest
      (r.1, w :: r.2)

/-- std::sort(write_set, write_set + write_set_size, WriteXctAccess::compare). -/
def sort_write_set (ws : List WriteXctAccess) : List WriteXctAccess :=
  ws.mergeSort WriteXctAccess.compare

/-- Result of one pass of the lock loop: either every entry processed, or
a moved-bit conflict was found after acquiring a lock and the pass must
release everything and retry. -/
inductive LockPass where
  | done (ws : List WriteXctAccess) (st : LockSt)
  | retry (ws : List WriteXctAccess) (st : LockSt)

/-- mcs_acquire_lock on one entry (the non-skip branch of the lock loop):
takes the next MCS block id, locks the owner word, then re-checks the
MOVED bit; when clear, accumulates max_xct_id. -/
def acquire_one (st : LockSt) (i : Nat) (w : WriteXctAccess) :
    WriteXctAccess × LockSt × Bool :=
  let block := st.mcs_block_current + 1
  let owner := st.mem w.owner_id_address
  let mem2 := st.mem.set w.owner_id_address { owner with lock := ⟨true⟩ }
  let w2 := { w with mcs_block := block }
  let st2 : LockSt :=
    { st with mem := mem2, mcs_block_current := block,
              trace := st.trace ++ [.acquire i w.owner_id_address block] }
  if (mem2 w.owner_id_address).is_moved then
    (w2, st2, true)
  else
    (w2,
     { st2 with max_xct_id := st2.max_xct_id.store_max (mem2 w.owner_id_address).xct_id },
     false)

/-- The lock loop over the sorted write set: an entry followed by another
entry with the same owner address is skipped (lock/unlock happens only at
the last one); otherwise the lock is acquired and the MOVED bit
re-checked. -/
def lock_pass (st : LockSt) (i : Nat) : List WriteXctAccess → LockPass
  | [] => .done [] st
  | w :: rest =>
    let skip : Bool := match rest with
      | w2 :: _ => w.owner_id_address = w2.owner_id_address
      | [] => false
    if skip then
      match lock_pass st (i + 1) rest with
      | .done ws st2 => .done (w :: ws) st2
      | .retry ws st2 => .retry (w :: ws) st2
    else
      let r := acquire_one st i w
      if r.2.2 then .retry (r.1 :: rest) r.2.1
      else
        match lock_pass r.2.1 (i + 1) rest with
        | .done ws st3 => .done (r.1 :: ws) st3
        | .retry ws st3 => .retry (r.1 :: ws) st3

/-- precommit_xct_unlock (xct_manager_pimpl.cpp lines 576-595): releases
the key lock of every write-set entry whose mcs_block_ is nonzero and
zeroes the block. -/
def unlock_go (st : LockSt) (i : Nat) : List WriteXctAccess → List WriteXctAccess × LockSt
  | [] => ([], st)
  | w :: rest =>
    if w.mcs_block ≠ 0 then
      let owner := st.mem w.owner_id_address
      let st2 : LockSt :=
        { st with mem := st.mem.set w.owner_id_address { owner with lock := ⟨false⟩ },
                  trace := st.trace ++ [.release i w.owner_id_address w.mcs_block] }
      let r := unlock_go st2 (i + 1) rest
      ({ w with mcs_block := 0 } :: r.1, r.2)
    else
      let r := unlock_go st (i + 1) rest
      (w :: r.1, r.2)

def precommit_xct_unlock (st : LockSt) (ws : List WriteXctAccess) :
    List WriteXctAccess × LockSt :=
  unlock_go st 0 ws

inductive LockOutcome where
  | success
  | trackFail
  | fuelOut
deriving Repr, DecidableEq

/-- precommit_xct_lock: the while(true) retry loop around (track
pre-pass; sort; lock pass), given fuel for the bounded retry.  A retry
releases all locks acquired so far and restarts from the pre-pass. -/
def precommit_xct_lock_go (senv : StorageEnv) (fuel : Nat) (st : LockSt)
    (ws : List WriteXctAccess) : LockOutcome × List WriteXctAccess × LockSt :=
  match fuel with
  | 0 => (.fuelOut, ws, st)
  | fuel + 1 =>
    let t := track_pre_pass senv st.mem ws
    if !t.1 then (.trackFail, t.2, st)
    else
      let ws2 := sort_write_set t.2
      match lock_pass st 0 ws2 with
      | .done ws3 st2 => (.success, ws3, st2)
      | .retry ws3 st2 =>
        let u := precommit_xct_unlock st2 ws3
        precommit_xct_lock_go senv fuel u.2 u.1

end Foedus

namespace Foedus

/-! ### Phase 2 — verification (xct_manager_pimpl.cpp lines 349-485) -/

/-- precommit_xct_verify_pointer_set: every pointer-set entry's current
word must equal the observed word. -/
def precommit_xct_verify_pointer_set (ptr_mem : Addr → Nat)
    (ps : List PointerAccess) : Bool :=
  ps.all fun a => ptr_mem a.address = a.observed_word

/-- precommit_xct_verify_page_version_set: every page-version-set entry's
current status must equal the observed one. -/
def precommit_xct_verify_page_version_set (page_ver_mem : Addr → Nat)
    (ps : List PageVersionAccess) : Bool :=
  ps.all fun a => page_ver_mem a.address = a.observed_status

/-- The read-set loop of precommit_xct_verify_readonly: resolve MOVED
owners via track_moved_record, compare the observed XctId with the
current one (any inequality aborts), and accumulate the highest observed
epoch into the commit epoch. -/
def verify_read_set_readonly (senv : StorageEnv) (mem : Memory) (ce : Epoch) :
    List XctAccess → Bool × List XctAccess × Epoch
  | [] => (true, [], ce)
  | a :: rest =>
    let a1 := if (mem a.owner_id_address).is_moved
      then { a with owner_id_address := senv.track_moved_record_read a.storage_id a.owner_id_address }
      else a
    if a1.observed_owner_id ≠ (mem a1.owner_id_address).xct_id then
      (false, a1 :: rest, ce)
    else
      let r := verify_read_set_readonly senv mem (ce.store_max a1.observed_owner_id.epoch) rest
      (r.1, a1 :: r.2.1, r.2.2)

/-- The read-set loop of precommit_xct_verify_readwrite: same resolution
and comparison, accumulating max_xct_id instead of an epoch. -/
def verify_read_set_readwrite (senv : StorageEnv) (mem : Memory) (mx : XctId) :
    List XctAccess → Bool × List XctAccess × XctId
  | [] => (true, [], mx)
  | a :: rest =>
    let a1 := if (mem a.owner_id_address).is_moved
      then { a with owner_id_address := senv.track_moved_record_read a.storage_id a.owner_id_address }
      else a
    if a1.observed_owner_id ≠ (mem a1.owner_id_address).xct_id then
      (false, a1 :: rest, mx)
    else
      let r := verify_read_set_readwrite senv mem (mx.store_max a1.observed_owner_id) rest
      (r.1, a1 :: r.2.1, r.2.2)

/-- precommit_xct_verify_readonly (lines 349-399): the read-set loop,
then the substitution of the durable global epoch when the accumulated
commit epoch is still invalid, then the pointer-set and page-version-set
checks.  Returns the verification result, the commit epoch and the world
with the read set as rewritten by moved-record resolution. -/
def precommit_xct_verify_readonly (senv : StorageEnv) (lenv : LogEnv)
    (w : World) (ce0 : Epoch) : Bool × Epoch × World :=
  let r := verify_read_set_readonly senv w.mem ce0 w.xct.read_set
  let w2 := { w with xct := { w.xct with read_set := r.2.1 } }
  if !r.1 then (false, r.2.2, w2)
  else
    let ce1 := if !r.2.2.is_valid then lenv.durable_global_epoch else r.2.2
    if !precommit_xct_verify_pointer_set w.ptr_mem w.xct.pointer_set then
      (false, ce1, w2)
    else if !precommit_xct_verify_page_version_set w.page_ver_mem w.xct.page_version_set then
      (false, ce1, w2)
    else (true, ce1, w2)

/-- precommit_xct_verify_readwrite (lines 401-445): the read-set loop
accumulating max_xct_id, then the pointer-set and page-version-set
checks. -/
def precommit_xct_verify_readwrite (senv : StorageEnv) (w : World) (mx : XctId) :
    Bool × XctId × World :=
  let r := verify_read_set_readwrite senv w.mem mx w.xct.read_set
  let w2 := { w with xct := { w.xct with read_set := r.2.1 } }
  if !r.1 then (false, r.2.2, w2)
  else if !precommit_xct_verify_pointer_set w.ptr_mem w.xct.pointer_set then
    (false, r.2.2, w2)
  else if !precommit_xct_verify_page_version_set w.page_ver_mem w.xct.page_version_set then
    (false, r.2.2, w2)
  else (true, r.2.2, w2)

/-! ### Phase 3 — precommit_xct_apply (xct_manager_pimpl.cpp lines 487-574) -/

/-- Stamping a write-set entry's log header with the new XctId
(write.log_entry_->header_.set_xct_id(new_xct_id)). -/
def stamp_header (w : WriteXctAccess) (nid : XctId) : WriteXctAccess :=
  { w with log_entry := { w.log_entry with header_xct_id := nid } }

/-- Setting the BEING_WRITTEN bit on an owner word (done at the first
write-set entry of each same-address run, while still KEY_LOCKED). -/
def set_being_written (mem : Memory) (a : Addr) : Memory :=
  Memory.set mem a
    { mem a with xct_id := { (mem a).xct_id with being_written := true } }

/-- The owner-word effect of invoke_apply_record: the storage-specific
apply mutates the payload (abstracted away) and leaves the owner's
DELETED bit equal to whether the log is a delete log. -/
def invoke_apply_record (mem : Memory) (a : Addr) (is_del : Bool) : Memory :=
  Memory.set mem a
    { mem a with xct_id := { (mem a).xct_id with deleted := is_del } }

/-- The memory after processing one write-set entry short of
finalization: BEING_WRITTEN is set unless the previous entry targeted
the same owner, then the log record is applied. -/
def apply_step_mem (prev : Option Addr) (mem : Memory) (w : WriteXctAccess) : Memory :=
  invoke_apply_record
    (if prev = some w.owner_id_address then mem
     else set_being_written mem w.owner_id_address)
    w.owner_id_address w.log_entry.is_delete

/-- Finalizing a record at the last write-set entry of its address:
overwrite the whole owner XctId (the deleted variant when the record is
in deleted state after apply) and release the MCS key lock. -/
def finalize_owner (mem : Memory) (a : Addr) (nid ndid : XctId) : Memory :=
  Memory.set mem a
    { xct_id := if (mem a).xct_id.deleted then ndid else nid, lock := ⟨false⟩ }

/-- The per-entry loop of precommit_xct_apply over the sorted write set:
stamp the log header with the new XctId; unless the previous entry
targeted the same owner, set BEING_WRITTEN on the owner; invoke the
storage-specific apply; and, when no following entry targets the same
owner, finalize the owner word and release the MCS key lock, zeroing
mcs_block_. -/
def apply_loop (nid ndid : XctId) (prev : Option Addr) (i : Nat)
    (mem : Memory) (trace : List Ev) :
    List WriteXctAccess → List WriteXctAccess × Memory × List Ev
  | [] => ([], mem, trace)
  | w :: rest =>
    let mem2 := apply_step_mem prev mem w
    let trace2 := trace ++ [.applyRec i w.owner_id_address]
    let is_last : Bool := match rest with
      | w2 :: _ => w.owner_id_address ≠ w2.owner_id_address
      | [] => true
    if is_last then
      let r := apply_loop nid ndid (some w.owner_id_address) (i + 1)
        (finalize_owner mem2 w.owner_id_address nid ndid)
        (trace2 ++
          [.finalize i w.owner_id_address
             (if (mem2 w.owner_id_address).xct_id.deleted then ndid else nid),
           .release i w.owner_id_address w.mcs_block]) rest
      ({ stamp_header w nid with mcs_block := 0 } :: r.1, r.2.1, r.2.2)
    else
      let r := apply_loop nid ndid (some w.owner_id_address) (i + 1) mem2 trace2 rest
      (stamp_header w nid :: r.1, r.2.1, r.2.2)

/-- precommit_xct_apply: issue the next XctId from max_xct_id and the
commit epoch, clear its status bits, derive the deleted variant, run the
write-set loop, then stamp and apply the lock-free write set. -/
def precommit_xct_apply (w : World) (max_xct_id : XctId) (commit_epoch : Epoch) :
    World × List Ev :=
  let xct1 := w.xct.issue_next_id max_xct_id commit_epoch
  let new_xct_id := xct1.id.clear_status_bits
  let new_deleted_xct_id := new_xct_id.set_deleted
  let r := apply_loop new_xct_id new_deleted_xct_id none 0 w.mem [] xct1.write_set
  let lf2 := xct1.lock_free_write_set.map fun l =>
    { l with log_entry := { l.log_entry with header_xct_id := new_xct_id } }
  ({ w with mem := r.2.1,
            xct := { xct1 with write_set := r.1, lock_free_write_set := lf2 } },
   r.2.2)

/-! ### precommit_xct and friends (xct_manager_pimpl.cpp lines 157-255, 597-606) -/

/-- precommit_xct_readwrite (lines 215-255): Phase 1 locking (false on a
tracking failure), the serialization-point read of the current global
epoch into the commit epoch, Phase 2 verification, then either Phase 3
apply plus log publish, or unlock. -/
def precommit_xct_readwrite (senv : StorageEnv) (fuel : Nat) (w : World)
    (ce0 : Epoch) : Option (Bool × Epoch × World × List Ev) :=
  let max0 := XctId.set kEpochInitialDurable 1
  let st0 : LockSt := { mem := w.mem, mcs_block_current := w.xct.mcs_block_current,
                        max_xct_id := max0, trace := [] }
  let l := precommit_xct_lock_go senv fuel st0 w.xct.write_set
  match l.1 with
  | .fuelOut => none
  | .trackFail =>
    let xct1 := { w.xct with write_set := l.2.1, mcs_block_current := l.2.2.mcs_block_current }
    some (false, ce0, { w with mem := l.2.2.mem, xct := xct1 }, l.2.2.trace)
  | .success =>
    let xct1 := { w.xct with write_set := l.2.1, mcs_block_current := l.2.2.mcs_block_current }
    let w1 := { w with mem := l.2.2.mem, xct := xct1 }
    let ce := w.current_global_epoch
    let v := precommit_xct_verify_readwrite senv w1 l.2.2.max_xct_id
    if v.1 then
      let a := precommit_xct_apply v.2.2 v.2.1 ce
      let w4 := { a.1 with log_buffer := a.1.log_buffer.publish_committed_log ce }
      some (true, ce, w4, l.2.2.trace ++ a.2)
    else
      let st2 : LockSt := { mem := v.2.2.mem,
                            mcs_block_current := v.2.2.xct.mcs_block_current,
                            max_xct_id := v.2.1, trace := l.2.2.trace }
      let u := precommit_xct_unlock st2 v.2.2.xct.write_set
      some (false, ce,
        { v.2.2 with mem := u.2.mem, xct := { v.2.2.xct with write_set := u.1 } },
        u.2.trace)

/-- precommit_xct_readonly (lines 206-213): start from the invalid epoch
and run read-only verification. -/
def precommit_xct_readonly (senv : StorageEnv) (lenv : LogEnv) (w : World) :
    Bool × Epoch × World :=
  precommit_xct_verify_readonly senv lenv w Epoch.invalid

/-- The dispatch inside precommit_xct (lines 189-195): the read-only or
the read-write path, selected by is_read_only, producing the success flag
and the commit epoch. -/
def precommit_xct_attempt (senv : StorageEnv) (lenv : LogEnv) (fuel : Nat)
    (w : World) (ce0 : Epoch) : Option (Bool × Epoch × World × List Ev) :=
  if w.xct.is_read_only then
    let r := precommit_xct_readonly senv lenv w
    some (r.1, r.2.1, r.2.2, [])
  else precommit_xct_readwrite senv fuel w ce0

/-- precommit_xct (lines 183-205): XctNoXct when no transaction is
active; otherwise the read-only or read-write path, then deactivation,
and on failure the discard of the uncommitted log tail with XctRaceAbort.
None when the lock phase ran out of retry fuel. -/
def precommit_xct (senv : StorageEnv) (lenv : LogEnv) (fuel : Nat) (w : World)
    (ce0 : Epoch) : Option (ErrorCode × Epoch × World × List Ev) :=
  if !w.xct.is_active then some (.xctNoXct, ce0, w, [])
  else
    match precommit_xct_attempt senv lenv fuel w ce0 with
    | none => none
    | some (success, ce, w2, tr) =>
      let w3 := { w2 with xct := w2.xct.deactivate }
      if success then some (.ok, ce, w3, tr)
      else some (.xctRaceAbort, ce,
        { w3 with log_buffer := w3.log_buffer.discard_current_xct_log }, tr)

/-- abort_xct (lines 597-606): XctNoXct when no transaction is active;
otherwise deactivate, discard the uncommitted log tail and return ok. -/
def abort_xct (w : World) : ErrorCode × World :=
  if !w.xct.is_active then (.xctNoXct, w)
  else (.ok, { w with xct := w.xct.deactivate,
                      log_buffer := w.log_buffer.discard_current_xct_log })

/-- begin_xct (lines 167-181): XctAlreadyRunning when a transaction is
already active; otherwise activate. -/
def begin_xct (w : World) : ErrorCode × World :=
  if w.xct.is_active then (.xctAlreadyRunning, w)
  else (.ok, { w with xct := w.xct.activate })

/-- wait_for_commit (lines 157-164): wake the epoch-advance thread when
commit_epoch < current_global_epoch, then delegate to the log manager's
wait_until_durable.  The Bool records whether the epoch-advance thread
was signalled during the call. -/
def wait_for_commit (lenv : LogEnv) (current_global_epoch commit_epoch : Epoch)
    (wait_microseconds : Int) : ErrorCode × Bool :=
  let signaled : Bool := if Epoch.lt commit_epoch current_global_epoch then true else false
  (lenv.wait_until_durable commit_epoch wait_microseconds, signaled)

end Foedus

namespace Foedus

/-! ### LogGleaner partitioner registry
(log_gleaner_impl.cpp lines 192-216)

Partitioner objects are identified by abstract nonzero pointer values;
0 stands for nullptr.  Partitioner::create_partitioner allocates a fresh
pointer by bumping an allocation counter.  The two critical sections of
the double-checked locking are modelled as atomic steps; everything other
threads do between them is an interference function applied to the
registry, constrained by hypotheses in the theorems. -/

abbrev PartPtr := Nat

structure PartRegistry where
  table : StorageId → Option PartPtr
  next_ptr : PartPtr

/-- Registry well-formedness: the allocator counter is nonzero and every
registered partitioner is a nonzero pointer the allocator has already
handed out. -/
def PartRegistry.wf (r : PartRegistry) : Prop :=
  1 ≤ r.next_ptr ∧ ∀ sid p, r.table sid = some p → p ≠ 0 ∧ p < r.next_ptr

/-- storage::Partitioner::create_partitioner: allocates a fresh
partitioner object. -/
def create_partitioner (r : PartRegistry) : PartPtr × PartRegistry :=
  (r.next_ptr, { r with next_ptr := r.next_ptr + 1 })

/-- r2 extends r: every registered partitioner stays registered under the
same pointer and the allocator only moves forward. -/
def RegExtends (r r2 : PartRegistry) : Prop :=
  (∀ sid p, r.table sid = some p → r2.table sid = some p) ∧ r.next_ptr ≤ r2.next_ptr

structure GocpResult where
  result : PartPtr
  reg : PartRegistry
  deleted_speculative : Option PartPtr

/-- LogGleaner::get_or_create_partitioner: look up under the mutex; when
absent, create a speculative partitioner outside the critical section,
re-check under the mutex, and either delete the speculative one and
return the winner's (losing the race) or insert and return it. -/
def get_or_create_partitioner (interf : PartRegistry → PartRegistry)
    (r : PartRegistry) (sid : StorageId) : GocpResult :=
  match r.table sid with
  | some p => { result := p, reg := r, deleted_speculative := none }
  | none =>
    let c := create_partitioner r
    let r2 := interf c.2
    match r2.table sid with
    | some q => { result := q, reg := r2, deleted_speculative := some c.1 }
    | none =>
      { result := c.1,
        reg := { r2 with table := fun s => if s = sid then some c.1 else r2.table s },
        deleted_speculative := none }

/-! ### HashMetadata::set_capacity
(hash_metadata.cpp lines 38-57)

The C++ function divides a uint64_t by a double; the model uses exact
rational arithmetic with truncation toward zero on the conversion back to
an unsigned integer.  kMaxEntriesPerBin is a constant declared in
hash_id.hpp, which is not under src/; it is left as a parameter. -/

/-- The for loop of set_capacity: bits counts up from its argument while
bits < 64 and 2^bits is still below bin_count. -/
def set_capacity_bits_loop (bin_count : Nat) (bits : Nat) : Nat :=
  if bits < 64 ∧ 2 ^ bits < bin_count then set_capacity_bits_loop bin_count (bits + 1)
  else bits
termination_by 64 - bits
decreasing_by omega

/-- HashMetadata::set_capacity: clamp the inputs, compute
bin_count = expected_records / preferred_fillfactor / kMaxEntriesPerBin,
find the smallest bits with 2^bits >= bin_count (capped at 64), and clamp
to at least 8.  Returns the resulting bin_bits_. -/
def set_capacity (kMaxEntriesPerBin : Nat) (expected_records : Nat)
    (preferred_fillfactor : ℚ) : Nat :=
  let er := if expected_records = 0 then 1 else expected_records
  let ff0 := if preferred_fillfactor ≥ 1 then 1 else preferred_fillfactor
  let ff := if ff0 < 1 / 10 then 1 / 10 else ff0
  let bin_count : Nat := (⌊(er : ℚ) / ff / (kMaxEntriesPerBin : ℚ)⌋).toNat
  let bits := set_capacity_bits_loop bin_count 0
  if bits < 8 then 8 else bits

end Foedus

namespace Foedus

/-! ### Concrete fixtures used by witnesses and counterexamples -/

def sample_owner : LockableXctId := { xct_id := XctId.set ⟨2⟩ 1, lock := ⟨false⟩ }

def sample_mem : Memory := fun _ => sample_owner

def sample_log_entry : LogEntry := { is_delete := false, header_xct_id := XctId.set ⟨0⟩ 0 }

def sample_write (a : Addr) : WriteXctAccess :=
  { storage_id := 1, owner_id_address := a, log_entry := sample_log_entry, mcs_block := 0 }

def sample_senv : StorageEnv :=
  { track_moved_record_write := fun _ _ => none, track_moved_record_read := fun _ a => a }

def sample_lenv : LogEnv :=
  { wait_until_durable := fun _ _ => .ok, durable_global_epoch := ⟨7⟩ }

def sample_xct_inactive : Xct :=
  { active := false
    read_set := []
    write_set := []
    lock_free_write_set := []
    pointer_set := []
    page_version_set := []
    mcs_block_current := 0
    id := XctId.set ⟨0⟩ 0 }

def sample_xct_rw : Xct :=
  { sample_xct_inactive with
      active := true
      write_set := [sample_write 5, sample_write 3, sample_write 5] }

def sample_world_of (x : Xct) : World :=
  { mem := sample_mem
    ptr_mem := fun _ => 0
    page_ver_mem := fun _ => 0
    xct := x
    log_buffer := { offset_committed := 10, offset_tail := 25 }
    current_global_epoch := ⟨5⟩ }

/-! ### C1 — wait_for_commit -/

/-- C1, counterexample: with current global epoch 2 and commit epoch 3
(so commit_epoch is strictly greater than the current global epoch in
the cyclic Epoch order), wait_for_commit does NOT signal the
epoch-advance thread, contradicting the claim that it is signalled
exactly when commit_epoch is greater. -/
theorem C1_counterexample :
    Epoch.lt ⟨2⟩ ⟨3⟩ = true ∧
    (wait_for_commit sample_lenv ⟨2⟩ ⟨3⟩ 1000).2 = false := by
  constructor
  · decide
  · decide

/-- C1 (amended): for every call wait_for_commit(commit_epoch,
wait_microseconds), the epoch-advance thread is signalled if and only if
commit_epoch is LESS than the current global epoch at the time of the
call (cyclic Epoch order); in all cases the call delegates to the log
manager's wait_until_durable(commit_epoch, wait_microseconds) and
returns its result. -/
theorem C1_wait_for_commit_amended (lenv : LogEnv) (cur ce : Epoch) (us : Int) :
    (wait_for_commit lenv cur ce us).2 = Epoch.lt ce cur ∧
    (wait_for_commit lenv cur ce us).1 = lenv.wait_until_durable ce us := by
  unfold wait_for_commit
  refine ⟨?_, rfl⟩
  by_cases h : Epoch.lt ce cur <;> simp [h]

/-! ### C6 — abort_xct -/

/-- C6: abort_xct on a context with no active transaction returns
XctNoXct and changes nothing at all; on an active transaction it
deactivates the context, discards the uncommitted tail of the thread log
buffer (the tail offset snaps back to the committed offset, which is
unchanged), and returns success. -/
theorem C6_abort_xct (w : World) :
    (w.xct.is_active = false → abort_xct w = (.xctNoXct, w)) ∧
    (w.xct.is_active = true →
      (abort_xct w).1 = .ok ∧
      (abort_xct w).2.xct.is_active = false ∧
      (abort_xct w).2.log_buffer.offset_tail = w.log_buffer.offset_committed ∧
      (abort_xct w).2.log_buffer.offset_committed = w.log_buffer.offset_committed ∧
      (abort_xct w).2.mem = w.mem ∧
      (abort_xct w).2.xct.read_set = w.xct.read_set ∧
      (abort_xct w).2.xct.write_set = w.xct.write_set ∧
      (abort_xct w).2.xct.lock_free_write_set = w.xct.lock_free_write_set) := by
  constructor
  · intro h
    simp only [Xct.is_active] at h
    unfold abort_xct
    simp [Xct.is_active, h]
  · intro h
    simp only [Xct.is_active] at h
    unfold abort_xct
    simp [Xct.is_active, h, Xct.deactivate, ThreadLogBuffer.discard_current_xct_log]

/-- C6, witness: the theorem evaluated at a concrete inactive context
and at a concrete active context. -/
theorem C6_abort_xct_witness :
    (abort_xct (sample_world_of sample_xct_inactive) =
      (.xctNoXct, sample_world_of sample_xct_inactive)) ∧
    ((abort_xct (sample_world_of sample_xct_rw)).1 = .ok ∧
      (abort_xct (sample_world_of sample_xct_rw)).2.xct.is_active = false ∧
      (abort_xct (sample_world_of sample_xct_rw)).2.log_buffer.offset_tail = 10) := by
  have h1 := (C6_abort_xct (sample_world_of sample_xct_inactive)).1 (by decide)
  have h2 := (C6_abort_xct (sample_world_of sample_xct_rw)).2 (by decide)
  exact ⟨h1, h2.1, h2.2.1, h2.2.2.1⟩

/-! ### C8 — partitioner registry -/

/-- C8: get_or_create_partitioner always returns a non-null partitioner
which is exactly the one registered under storage_id when the call
returns; a partitioner already registered is returned unchanged (first
insertion wins) and nothing speculative is deleted in that case; the
loser of the insertion race deletes its speculatively created
partitioner and returns the registered one; the registry only grows; and
every later call for the same storage_id, from any registry state
extending this call's final one, returns the pointer-equal same
partitioner.  The interference function stands for whatever other
threads do between the two critical sections; it is assumed to preserve
well-formedness and to only extend the registry. -/
theorem C8_get_or_create_partitioner (interf : PartRegistry → PartRegistry)
    (r : PartRegistry) (sid : StorageId)
    (hwf : r.wf)
    (hinterf : ∀ r2, r2.wf → (interf r2).wf ∧ RegExtends r2 (interf r2)) :
    (get_or_create_partitioner interf r sid).result ≠ 0 ∧
    (get_or_create_partitioner interf r sid).reg.table sid =
      some (get_or_create_partitioner interf r sid).result ∧
    (get_or_create_partitioner interf r sid).reg.wf ∧
    RegExtends r (get_or_create_partitioner interf r sid).reg ∧
    (∀ p0, r.table sid = some p0 →
      (get_or_create_partitioner interf r sid).result = p0 ∧
      (get_or_create_partitioner interf r sid).deleted_speculative = none) ∧
    (∀ q, r.table sid = none →
      (interf (create_partitioner r).2).table sid = some q →
      (get_or_create_partitioner interf r sid).deleted_speculative =
        some (create_partitioner r).1 ∧
      (get_or_create_partitioner interf r sid).result = q) ∧
    (∀ interf2 r3, RegExtends (get_or_create_partitioner interf r sid).reg r3 →
      (get_or_create_partitioner interf2 r3 sid).result =
        (get_or_create_partitioner interf r sid).result) := by
  have hc1 : (create_partitioner r).1 = r.next_ptr := rfl
  have hc2n : (create_partitioner r).2.next_ptr = r.next_ptr + 1 := rfl
  have hc2t : (create_partitioner r).2.table = r.table := rfl
  have halloc : (create_partitioner r).2.wf := by
    obtain ⟨h1, h2⟩ := hwf
    constructor
    · rw [hc2n]
      exact Nat.le_succ_of_le h1
    · intro s p hp
      rw [hc2t] at hp
      have h3 := h2 s p hp
      rw [hc2n]
      exact ⟨h3.1, Nat.lt_succ_of_lt h3.2⟩
  obtain ⟨hwf2, hext2⟩ := hinterf (create_partitioner r).2 halloc
  have hnext2 : r.next_ptr + 1 ≤ (interf (create_partitioner r).2).next_ptr :=
    le_trans (le_of_eq hc2n.symm) hext2.2
  have hext02 : RegExtends r (interf (create_partitioner r).2) := by
    constructor
    · intro s p hp
      exact hext2.1 s p (by rw [hc2t]; exact hp)
    · exact le_trans (Nat.le_succ _) hnext2
  cases hfind : r.table sid with
  | some p =>
    have heq : get_or_create_partitioner interf r sid =
        { result := p, reg := r, deleted_speculative := none } := by
      simp only [get_or_create_partitioner, hfind]
    rw [heq]
    have hp := hwf.2 sid p hfind
    refine ⟨hp.1, hfind, hwf, ⟨fun _ _ h => h, le_rfl⟩, ?_, ?_, ?_⟩
    · intro p0 h0
      cases h0
      exact ⟨rfl, rfl⟩
    · intro q h0
      cases h0
    · intro interf2 r3 hext3
      have h3 := hext3.1 sid p hfind
      simp only [get_or_create_partitioner, h3]
  | none =>
    cases hfind2 : (interf (create_partitioner r).2).table sid with
    | some q =>
      have heq : get_or_create_partitioner interf r sid =
          { result := q, reg := interf (create_partitioner r).2,
            deleted_speculative := some (create_partitioner r).1 } := by
        simp only [get_or_create_partitioner, hfind, hfind2]
      rw [heq]
      have hq := hwf2.2 sid q hfind2
      refine ⟨hq.1, hfind2, hwf2, hext02, ?_, ?_, ?_⟩
      · intro p0 h0
        cases h0
      · intro q2 _ h2
        cases h2
        exact ⟨rfl, rfl⟩
      · intro interf2 r3 hext3
        have h3 := hext3.1 sid q hfind2
        simp only [get_or_create_partitioner, h3]
    | none =>
      have heq : get_or_create_partitioner interf r sid =
          { result := (create_partitioner r).1,
            reg := { table := fun s => if s = sid then some (create_partitioner r).1
                       else (interf (create_partitioner r).2).table s,
                     next_ptr := (interf (create_partitioner r).2).next_ptr },
            deleted_speculative := none } := by
        simp only [get_or_create_partitioner, hfind, hfind2]
      rw [heq]
      have hple : r.next_ptr < (interf (create_partitioner r).2).next_ptr :=
        lt_of_lt_of_le (Nat.lt_succ_self _) hnext2
      refine ⟨?_, by simp, ?_, ?_, ?_, ?_, ?_⟩
      · rw [hc1]
        exact Nat.pos_iff_ne_zero.mp hwf.1
      · constructor
        · exact le_trans hwf.1 hext02.2
        · intro s p hp
          show p ≠ 0 ∧ p < (interf (create_partitioner r).2).next_ptr
          by_cases hs : s = sid
          · subst hs
            simp only [if_pos rfl] at hp
            cases hp
            rw [hc1]
            exact ⟨Nat.pos_iff_ne_zero.mp hwf.1, hple⟩
          · simp only [if_neg hs] at hp
            exact hwf2.2 s p hp
      · constructor
        · intro s p hp
          have hs : s ≠ sid := by
            intro he
            subst he
            rw [hfind] at hp
            cases hp
          show (if s = sid then some (create_partitioner r).1
            else (interf (create_partitioner r).2).table s) = some p
          rw [if_neg hs]
          exact hext02.1 s p hp
        · exact le_of_lt hple
      · intro p0 h0
        cases h0
      · intro q _ h2
        cases h2
      · intro interf2 r3 hext3
        have hmem : r3.table sid = some (create_partitioner r).1 := by
          apply hext3.1
          simp
        simp only [get_or_create_partitioner, hmem]

/-- C8, witness: the theorem evaluated with the identity interference on
the empty registry. -/
theorem C8_get_or_create_partitioner_witness :
    (get_or_create_partitioner id { table := fun _ => none, next_ptr := 1 } 7).result ≠ 0 ∧
    (get_or_create_partitioner id { table := fun _ => none, next_ptr := 1 } 7).reg.table 7 =
      some (get_or_create_partitioner id { table := fun _ => none, next_ptr := 1 } 7).result := by
  have h := C8_get_or_create_partitioner id { table := fun _ => none, next_ptr := 1 } 7
    ⟨le_rfl, fun sid p hp => by cases hp⟩
    (fun r2 hw => ⟨hw, fun _ _ hh => hh, le_rfl⟩)
  exact ⟨h.1, h.2.1⟩

end Foedus

namespace Foedus

/-! ### Helper predicates and expected event streams -/

/-- Position j of the write set is not followed by another entry with the
same owner address (the code's run-end test); on a sorted write set this
is exactly "j is the last entry of its address". -/
def next_differs (ws : List WriteXctAccess) (j : Nat) : Prop :=
  j + 1 = ws.length ∨
    (ws.getD (j + 1) default).owner_id_address ≠ (ws.getD j default).owner_id_address

instance (ws : List WriteXctAccess) (j : Nat) : Decidable (next_differs ws j) := by
  unfold next_differs
  infer_instance

/-- The owner addresses of a write set, in order. -/
def addrs_of (ws : List WriteXctAccess) : List Addr := ws.map fun w => w.owner_id_address

/-- The exact sequence of lock-acquisition events a retry-free pass of
the lock loop emits, starting at entry index i with MCS block counter b:
one acquisition per run-end entry. -/
def acq_events (i b : Nat) : List WriteXctAccess → List Ev
  | [] => []
  | w :: rest =>
    let skip : Bool := match rest with
      | w2 :: _ => w.owner_id_address = w2.owner_id_address
      | [] => false
    if skip then acq_events (i + 1) b rest
    else .acquire i w.owner_id_address (b + 1) :: acq_events (i + 1) (b + 1) rest

/-- The exact sequence of events precommit_xct_apply's write-set loop
emits: one apply per entry, plus the owner-word finalization and the lock
release at each run-end entry. -/
def apply_expected_events (nid ndid : XctId) (i : Nat) : List WriteXctAccess → List Ev
  | [] => []
  | w :: rest =>
    let is_last : Bool := match rest with
      | w2 :: _ => w.owner_id_address ≠ w2.owner_id_address
      | [] => true
    .applyRec i w.owner_id_address ::
      ((if is_last then
          [.finalize i w.owner_id_address (if w.log_entry.is_delete then ndid else nid),
           .release i w.owner_id_address w.mcs_block]
        else []) ++ apply_expected_events nid ndid (i + 1) rest)

@[simp] theorem Memory.set_same (m : Memory) (a : Addr) (v : LockableXctId) :
    Memory.set m a v a = v := by
  simp [Memory.set]

theorem Memory.set_other (m : Memory) (a : Addr) (v : LockableXctId) (x : Addr)
    (h : x ≠ a) : Memory.set m a v x = m x := by
  simp [Memory.set, h]

/-- next_differs at a cons, successor position. -/
theorem next_differs_cons_succ (w : WriteXctAccess) (rest : List WriteXctAccess) (j : Nat) :
    next_differs (w :: rest) (j + 1) ↔ next_differs rest j := by
  unfold next_differs
  simp only [List.getD_cons_succ, List.length_cons, Nat.add_right_cancel_iff]

/-- next_differs at the head of a two-or-more element list. -/
theorem next_differs_cons_cons_zero (w w2 : WriteXctAccess) (rest2 : List WriteXctAccess) :
    next_differs (w :: w2 :: rest2) 0 ↔ w2.owner_id_address ≠ w.owner_id_address := by
  unfold next_differs
  simp only [List.getD_cons_succ, List.getD_cons_zero, List.length_cons]
  constructor
  · rintro (h | h)
    · omega
    · exact h
  · intro h
    exact Or.inr h

/-- next_differs at a singleton. -/
theorem next_differs_singleton (w : WriteXctAccess) : next_differs [w] 0 := by
  unfold next_differs
  left
  rfl



@[simp] theorem apply_step_mem_at_deleted (prev : Option Addr) (mem : Memory)
    (w : WriteXctAccess) :
    (apply_step_mem prev mem w w.owner_id_address).xct_id.deleted = w.log_entry.is_delete := by
  simp [apply_step_mem, invoke_apply_record]

theorem apply_step_mem_other (prev : Option Addr) (mem : Memory) (w : WriteXctAccess)
    (x : Addr) (h : x ≠ w.owner_id_address) : apply_step_mem prev mem w x = mem x := by
  unfold apply_step_mem invoke_apply_record set_being_written
  rcases prev with _ | p
  · simp [Memory.set, h]
  · by_cases hp : some p = some w.owner_id_address <;> simp [Memory.set, h, hp]

theorem finalize_owner_other (m : Memory) (a : Addr) (nid ndid : XctId) (x : Addr)
    (h : x ≠ a) : finalize_owner m a nid ndid x = m x := by
  simp [finalize_owner, Memory.set, h]

@[simp] theorem finalize_owner_at (m : Memory) (a : Addr) (nid ndid : XctId) :
    finalize_owner m a nid ndid a =
      { xct_id := if (m a).xct_id.deleted then ndid else nid, lock := ⟨false⟩ } := by
  simp [finalize_owner]

@[simp] theorem addrs_of_nil : addrs_of [] = [] := rfl

@[simp] theorem addrs_of_cons (w : WriteXctAccess) (rest : List WriteXctAccess) :
    addrs_of (w :: rest) = w.owner_id_address :: addrs_of rest := rfl

/-! ### Specification of the apply loop -/

/-- The entry-list and trace behaviour of apply_loop: the emitted events
are exactly apply_expected_events; storage ids, owner addresses and log
types are untouched; every log header is stamped with the new XctId; and
mcs_block_ is zeroed exactly at run-end entries and kept elsewhere. -/
theorem apply_loop_list_spec (nid ndid : XctId) (ws : List WriteXctAccess) :
    ∀ (prev : Option Addr) (i : Nat) (mem : Memory) (tr : List Ev),
    (apply_loop nid ndid prev i mem tr ws).2.2 = tr ++ apply_expected_events nid ndid i ws ∧
    ((apply_loop nid ndid prev i mem tr ws).1.map fun u =>
        (u.storage_id, u.owner_id_address, u.log_entry.is_delete)) =
      (ws.map fun u => (u.storage_id, u.owner_id_address, u.log_entry.is_delete)) ∧
    (∀ u ∈ (apply_loop nid ndid prev i mem tr ws).1, u.log_entry.header_xct_id = nid) ∧
    (∀ j, j < ws.length →
      ((apply_loop nid ndid prev i mem tr ws).1.getD j default).mcs_block =
        if next_differs ws j then 0 else (ws.getD j default).mcs_block) := by
  induction ws with
  | nil =>
    intro prev i mem tr
    refine ⟨by simp [apply_loop, apply_expected_events], by simp [apply_loop], ?_, ?_⟩
    · intro u hu
      simp [apply_loop] at hu
    · intro j hj
      simp at hj
  | cons w rest ih =>
    intro prev i mem tr
    rcases rest with _ | ⟨w2, rest2⟩
    · refine ⟨?_, ?_, ?_, ?_⟩
      · simp [apply_loop, apply_expected_events, stamp_header]
      · simp [apply_loop, stamp_header]
      · intro u hu
        simp [apply_loop, stamp_header] at hu
        simp [hu]
      · intro j hj
        simp only [List.length_singleton] at hj
        have hj0 : j = 0 := by omega
        subst hj0
        simp [apply_loop, next_differs_singleton, stamp_header]
    · by_cases haddr : w.owner_id_address = w2.owner_id_address
      · have hif : ¬ ((decide (w.owner_id_address ≠ w2.owner_id_address)) = true) := by
          simp [haddr]
        obtain ⟨iht, ihsk, ihh, ihm⟩ := ih (some w.owner_id_address) (i + 1)
          (apply_step_mem prev mem w) (tr ++ [.applyRec i w.owner_id_address])
        refine ⟨?_, ?_, ?_, ?_⟩
        · rw [apply_loop.eq_2, if_neg hif]
          rw [apply_expected_events.eq_2, if_neg hif]
          rw [iht]
          simp
        · rw [apply_loop.eq_2, if_neg hif]
          simp only [List.map_cons]
          rw [ihsk]
          simp [stamp_header]
        · intro u hu
          rw [apply_loop.eq_2, if_neg hif] at hu
          simp only [List.mem_cons] at hu
          rcases hu with hu | hu
          · simp [hu, stamp_header]
          · exact ihh u hu
        · intro j hj
          rw [apply_loop.eq_2, if_neg hif]
          rcases j with _ | j
          · have hnd : ¬ next_differs (w :: w2 :: rest2) 0 := by
              rw [next_differs_cons_cons_zero]
              simp [haddr]
            simp [hnd, stamp_header]
          · simp only [List.getD_cons_succ]
            have hjj : j < (w2 :: rest2).length := by
              simp only [List.length_cons] at hj ⊢
              omega
            rw [ihm j hjj]
            by_cases hnd : next_differs (w2 :: rest2) j
            · rw [if_pos hnd, if_pos ((next_differs_cons_succ w (w2 :: rest2) j).mpr hnd)]
            · rw [if_neg hnd,
                if_neg (fun hc => hnd ((next_differs_cons_succ w (w2 :: rest2) j).mp hc))]
      · have hif : (decide (w.owner_id_address ≠ w2.owner_id_address)) = true := by
          simp [haddr]
        have hifp := hif
        obtain ⟨iht, ihsk, ihh, ihm⟩ := ih (some w.owner_id_address) (i + 1)
          (finalize_owner (apply_step_mem prev mem w) w.owner_id_address nid ndid)
          (tr ++ [.applyRec i w.owner_id_address] ++
            [.finalize i w.owner_id_address (if w.log_entry.is_delete then ndid else nid),
             .release i w.owner_id_address w.mcs_block])
        refine ⟨?_, ?_, ?_, ?_⟩
        · rw [apply_loop.eq_2, if_pos hif]
          simp only [apply_step_mem_at_deleted]
          rw [apply_expected_events.eq_2, if_pos hif]
          rw [iht]
          simp
        · rw [apply_loop.eq_2, if_pos hif]
          simp only [apply_step_mem_at_deleted, List.map_cons]
          rw [ihsk]
          simp [stamp_header]
        · intro u hu
          rw [apply_loop.eq_2, if_pos hif] at hu
          simp only [apply_step_mem_at_deleted, List.mem_cons] at hu
          rcases hu with hu | hu
          · simp [hu, stamp_header]
          · exact ihh u hu
        · intro j hj
          rw [apply_loop.eq_2, if_pos hif]
          simp only [apply_step_mem_at_deleted]
          rcases j with _ | j
          · have hnd : next_differs (w :: w2 :: rest2) 0 := by
              rw [next_differs_cons_cons_zero]
              exact fun hc => haddr hc.symm
            simp [hnd, stamp_header]
          · simp only [List.getD_cons_succ]
            have hjj : j < (w2 :: rest2).length := by
              simp only [List.length_cons] at hj ⊢
              omega
            rw [ihm j hjj]
            by_cases hnd : next_differs (w2 :: rest2) j
            · rw [if_pos hnd, if_pos ((next_differs_cons_succ w (w2 :: rest2) j).mpr hnd)]
            · rw [if_neg hnd,
                if_neg (fun hc => hnd ((next_differs_cons_succ w (w2 :: rest2) j).mp hc))]

end Foedus

namespace Foedus

/-- The memory behaviour of apply_loop: owner words outside the write
set are untouched; every written address ends with its MCS key lock
released and its owner XctId finalized to the new id or its deleted
variant. -/
theorem apply_loop_mem_spec (nid ndid : XctId) (ws : List WriteXctAccess) :
    ∀ (prev : Option Addr) (i : Nat) (mem : Memory) (tr : List Ev),
    (∀ a, a ∉ addrs_of ws → (apply_loop nid ndid prev i mem tr ws).2.1 a = mem a) ∧
    (∀ a, a ∈ addrs_of ws →
      ((apply_loop nid ndid prev i mem tr ws).2.1 a).lock.locked = false ∧
      (((apply_loop nid ndid prev i mem tr ws).2.1 a).xct_id = nid ∨
       ((apply_loop nid ndid prev i mem tr ws).2.1 a).xct_id = ndid)) := by
  induction ws with
  | nil =>
    intro prev i mem tr
    refine ⟨fun a _ => by simp [apply_loop], fun a ha => by simp at ha⟩
  | cons w rest ih =>
    intro prev i mem tr
    have hsplit : ∀ (mem2 : Memory) (tr2 : List Ev),
        (∀ a, a ∉ addrs_of rest → (apply_loop nid ndid (some w.owner_id_address) (i + 1) mem2 tr2 rest).2.1 a = mem2 a) ∧
        (∀ a, a ∈ addrs_of rest →
          ((apply_loop nid ndid (some w.owner_id_address) (i + 1) mem2 tr2 rest).2.1 a).lock.locked = false ∧
          (((apply_loop nid ndid (some w.owner_id_address) (i + 1) mem2 tr2 rest).2.1 a).xct_id = nid ∨
           ((apply_loop nid ndid (some w.owner_id_address) (i + 1) mem2 tr2 rest).2.1 a).xct_id = ndid)) :=
      fun mem2 tr2 => ih (some w.owner_id_address) (i + 1) mem2 tr2
    rcases hstep : rest with _ | ⟨w2, rest2⟩
    · subst hstep
      constructor
      · intro a ha
        simp only [addrs_of_cons, addrs_of_nil, List.mem_cons, List.not_mem_nil, or_false] at ha
        rw [apply_loop.eq_3, if_pos rfl]
        rw [(hsplit _ _).1 a (by simp)]
        rw [finalize_owner_other _ _ _ _ _ ha, apply_step_mem_other _ _ _ _ ha]
      · intro a ha
        simp only [addrs_of_cons, addrs_of_nil, List.mem_cons, List.not_mem_nil, or_false] at ha
        subst ha
        rw [apply_loop.eq_3, if_pos rfl]
        rw [(hsplit _ _).1 w.owner_id_address (by simp)]
        simp only [finalize_owner_at]
        by_cases hd : w.log_entry.is_delete
        · simp [hd]
        · simp [hd]
    · subst hstep
      by_cases haddr : w.owner_id_address = w2.owner_id_address
      · have hif : ¬ ((decide (w.owner_id_address ≠ w2.owner_id_address)) = true) := by
          simp [haddr]
        constructor
        · intro a ha
          simp only [addrs_of_cons, List.mem_cons, not_or] at ha
          rw [apply_loop.eq_2, if_neg hif]
          rw [(hsplit _ _).1 a
            (by simp only [addrs_of_cons, List.mem_cons, not_or]; exact ⟨ha.2.1, ha.2.2⟩)]
          exact apply_step_mem_other _ _ _ _ ha.1
        · intro a ha
          simp only [addrs_of_cons, List.mem_cons] at ha
          rw [apply_loop.eq_2, if_neg hif]
          have hmem : a ∈ addrs_of (w2 :: rest2) := by
            rcases ha with ha | ha | ha
            · simp only [addrs_of_cons, List.mem_cons]
              left
              rw [ha, haddr]
            · simp only [addrs_of_cons, List.mem_cons]
              exact Or.inl ha
            · simp only [addrs_of_cons, List.mem_cons]
              exact Or.inr ha
          exact (hsplit (apply_step_mem prev mem w) _).2 a hmem
      · have hif : (decide (w.owner_id_address ≠ w2.owner_id_address)) = true := by
          simp [haddr]
        constructor
        · intro a ha
          simp only [addrs_of_cons, List.mem_cons, not_or] at ha
          rw [apply_loop.eq_2, if_pos hif]
          rw [(hsplit _ _).1 a
            (by simp only [addrs_of_cons, List.mem_cons, not_or]; exact ⟨ha.2.1, ha.2.2⟩)]
          rw [finalize_owner_other _ _ _ _ _ ha.1, apply_step_mem_other _ _ _ _ ha.1]
        · intro a ha
          simp only [addrs_of_cons, List.mem_cons] at ha
          rw [apply_loop.eq_2, if_pos hif]
          by_cases hmem : a ∈ addrs_of (w2 :: rest2)
          · exact (hsplit (finalize_owner (apply_step_mem prev mem w) w.owner_id_address nid ndid) _).2 a hmem
          · have ha0 : a = w.owner_id_address := by
              rcases ha with ha | ha | ha
              · exact ha
              · exact absurd (by simp only [addrs_of_cons, List.mem_cons]; exact Or.inl ha) hmem
              · exact absurd (by simp only [addrs_of_cons, List.mem_cons]; exact Or.inr ha) hmem
            subst ha0
            rw [(hsplit _ _).1 w.owner_id_address hmem]
            simp only [finalize_owner_at]
            by_cases hd : w.log_entry.is_delete
            · simp [hd]
            · simp [hd]

end Foedus

namespace Foedus

/-- C5: the transaction id issued by issue_next_id(max_xct_id,
commit_epoch) inside precommit_xct_apply has epoch = commit_epoch,
ordinal = max(max_xct_id.ordinal+1, last_local_ordinal+1), hence
strictly positive and strictly above the previous ordinal this worker
used in the same epoch, and all status bits cleared; and that id is what
gets stamped into every write-set log header, every lock-free write-set
log header, and (possibly with the DELETED bit for deletes) every owner
word of the write set. -/
theorem C5_issue_next_id_stamp (w : World) (max_xct_id : XctId) (commit_epoch : Epoch) :
    (precommit_xct_apply w max_xct_id commit_epoch).1.xct.id =
      XctId.set commit_epoch
        (max (max_xct_id.ordinal + 1)
          ((if w.xct.id.epoch = commit_epoch then w.xct.id.ordinal else 0) + 1)) ∧
    (precommit_xct_apply w max_xct_id commit_epoch).1.xct.id.epoch = commit_epoch ∧
    0 < (precommit_xct_apply w max_xct_id commit_epoch).1.xct.id.ordinal ∧
    (w.xct.id.epoch = commit_epoch →
      w.xct.id.ordinal < (precommit_xct_apply w max_xct_id commit_epoch).1.xct.id.ordinal) ∧
    (precommit_xct_apply w max_xct_id commit_epoch).1.xct.id.being_written = false ∧
    (precommit_xct_apply w max_xct_id commit_epoch).1.xct.id.deleted = false ∧
    (precommit_xct_apply w max_xct_id commit_epoch).1.xct.id.moved = false ∧
    (∀ u ∈ (precommit_xct_apply w max_xct_id commit_epoch).1.xct.write_set,
      u.log_entry.header_xct_id = (precommit_xct_apply w max_xct_id commit_epoch).1.xct.id) ∧
    (∀ u ∈ (precommit_xct_apply w max_xct_id commit_epoch).1.xct.lock_free_write_set,
      u.log_entry.header_xct_id = (precommit_xct_apply w max_xct_id commit_epoch).1.xct.id) ∧
    (∀ a ∈ addrs_of w.xct.write_set,
      ((precommit_xct_apply w max_xct_id commit_epoch).1.mem a).xct_id =
          (precommit_xct_apply w max_xct_id commit_epoch).1.xct.id ∨
      ((precommit_xct_apply w max_xct_id commit_epoch).1.mem a).xct_id =
          (precommit_xct_apply w max_xct_id commit_epoch).1.xct.id.set_deleted) := by
  have hid : (precommit_xct_apply w max_xct_id commit_epoch).1.xct.id =
      XctId.set commit_epoch
        (max (max_xct_id.ordinal + 1)
          ((if w.xct.id.epoch = commit_epoch then w.xct.id.ordinal else 0) + 1)) := by
    simp only [precommit_xct_apply, Xct.issue_next_id]
  have hclear : ((precommit_xct_apply w max_xct_id commit_epoch).1.xct.id).clear_status_bits =
      (precommit_xct_apply w max_xct_id commit_epoch).1.xct.id := by
    rw [hid]
    simp [XctId.set, XctId.clear_status_bits]
  refine ⟨hid, by rw [hid]; rfl, ?_, ?_, by rw [hid]; rfl, by rw [hid]; rfl, by rw [hid]; rfl,
    ?_, ?_, ?_⟩
  · rw [hid]
    exact Nat.lt_of_lt_of_le (Nat.succ_pos _) (Nat.le_max_left _ _)
  · intro he
    rw [hid]
    show w.xct.id.ordinal < max _ _
    refine Nat.lt_of_lt_of_le (Nat.lt_succ_self _) (le_trans ?_ (Nat.le_max_right _ _))
    rw [if_pos he]
  · intro u hu
    rw [hclear.symm]
    have hws : (precommit_xct_apply w max_xct_id commit_epoch).1.xct.write_set =
        (apply_loop ((w.xct.issue_next_id max_xct_id commit_epoch).id.clear_status_bits)
          ((w.xct.issue_next_id max_xct_id commit_epoch).id.clear_status_bits.set_deleted)
          none 0 w.mem [] w.xct.write_set).1 := rfl
    rw [hws] at hu
    have h := (apply_loop_list_spec
      ((w.xct.issue_next_id max_xct_id commit_epoch).id.clear_status_bits)
      ((w.xct.issue_next_id max_xct_id commit_epoch).id.clear_status_bits.set_deleted)
      w.xct.write_set none 0 w.mem []).2.2.1 u hu
    rw [h]
    rfl
  · intro u hu
    rw [hclear.symm]
    have hlf : (precommit_xct_apply w max_xct_id commit_epoch).1.xct.lock_free_write_set =
        w.xct.lock_free_write_set.map (fun l =>
          { l with log_entry := { l.log_entry with header_xct_id :=
              (w.xct.issue_next_id max_xct_id commit_epoch).id.clear_status_bits } }) := rfl
    rw [hlf] at hu
    simp only [List.mem_map] at hu
    obtain ⟨l, _, hl⟩ := hu
    rw [hl.symm]
    rfl
  · intro a ha
    rw [hclear.symm]
    have hmem : (precommit_xct_apply w max_xct_id commit_epoch).1.mem =
        (apply_loop ((w.xct.issue_next_id max_xct_id commit_epoch).id.clear_status_bits)
          ((w.xct.issue_next_id max_xct_id commit_epoch).id.clear_status_bits.set_deleted)
          none 0 w.mem [] w.xct.write_set).2.1 := rfl
    rw [hmem]
    have h := (apply_loop_mem_spec
      ((w.xct.issue_next_id max_xct_id commit_epoch).id.clear_status_bits)
      ((w.xct.issue_next_id max_xct_id commit_epoch).id.clear_status_bits.set_deleted)
      w.xct.write_set none 0 w.mem []).2 a ha
    exact h.2

end Foedus

namespace Foedus

def sample_xct_rw5 : Xct := { sample_xct_rw with id := XctId.set ⟨5⟩ 3 }

/-- C5, witness: the theorem evaluated at a concrete read-write context
whose last issued id lies in the commit epoch. -/
theorem C5_issue_next_id_stamp_witness :
    ((sample_world_of sample_xct_rw5).xct.id.epoch = (⟨5⟩ : Epoch)) ∧
    (sample_world_of sample_xct_rw5).xct.id.ordinal <
      (precommit_xct_apply (sample_world_of sample_xct_rw5) (XctId.set ⟨2⟩ 1)
        ⟨5⟩).1.xct.id.ordinal ∧
    ((precommit_xct_apply (sample_world_of sample_xct_rw5) (XctId.set ⟨2⟩ 1)
        ⟨5⟩).1.xct.write_set.getD 0 default).log_entry.header_xct_id =
      (precommit_xct_apply (sample_world_of sample_xct_rw5) (XctId.set ⟨2⟩ 1) ⟨5⟩).1.xct.id := by
  refine ⟨by decide, ?_, ?_⟩
  · exact (C5_issue_next_id_stamp (sample_world_of sample_xct_rw5)
      (XctId.set ⟨2⟩ 1) ⟨5⟩).2.2.2.1 (by decide)
  · exact (C5_issue_next_id_stamp (sample_world_of sample_xct_rw5)
      (XctId.set ⟨2⟩ 1) ⟨5⟩).2.2.2.2.2.2.2.1 _ (by decide)

end Foedus

namespace Foedus

theorem acquire_one_fst (st : LockSt) (i : Nat) (w : WriteXctAccess) :
    (acquire_one st i w).1 = { w with mcs_block := st.mcs_block_current + 1 } := by
  simp only [acquire_one]
  split <;> rfl

theorem acquire_one_mem (st : LockSt) (i : Nat) (w : WriteXctAccess) :
    (acquire_one st i w).2.1.mem =
      Memory.set st.mem w.owner_id_address
        { st.mem w.owner_id_address with lock := ⟨true⟩ } := by
  simp only [acquire_one]
  split <;> rfl

theorem acquire_one_mcs (st : LockSt) (i : Nat) (w : WriteXctAccess) :
    (acquire_one st i w).2.1.mcs_block_current = st.mcs_block_current + 1 := by
  simp only [acquire_one]
  split <;> rfl

theorem acquire_one_trace (st : LockSt) (i : Nat) (w : WriteXctAccess) :
    (acquire_one st i w).2.1.trace =
      st.trace ++ [.acquire i w.owner_id_address (st.mcs_block_current + 1)] := by
  simp only [acquire_one]
  split <;> rfl

theorem acquire_one_flag (st : LockSt) (i : Nat) (w : WriteXctAccess) :
    (acquire_one st i w).2.2 = (st.mem w.owner_id_address).is_moved := by
  simp only [acquire_one, Memory.set_same, LockableXctId.is_moved]
  split
  case isTrue h => exact h.symm
  case isFalse h =>
    simp only [Bool.not_eq_true] at h
    simp [h]

end Foedus

namespace Foedus

/-- What a completed (retry-free) pass of the lock loop establishes,
starting from a write set whose MCS blocks are all zero: entries keep
their storage id, owner address and log entry; the MCS block is nonzero
exactly at run-end entries; the trace grows by exactly the expected
acquisition events; owner XctIds are untouched; and an owner word ends
up locked exactly when it was already locked or some resulting entry
holds its lock. -/
theorem lock_pass_done_spec (ws : List WriteXctAccess) :
    ∀ (st : LockSt) (i : Nat) (ws2 : List WriteXctAccess) (st2 : LockSt),
    (∀ u ∈ ws, u.mcs_block = 0) →
    lock_pass st i ws = .done ws2 st2 →
    ws2.length = ws.length ∧
    (∀ j, (ws2.getD j default).storage_id = (ws.getD j default).storage_id ∧
          (ws2.getD j default).owner_id_address = (ws.getD j default).owner_id_address ∧
          (ws2.getD j default).log_entry = (ws.getD j default).log_entry) ∧
    (∀ j, j < ws.length → ((ws2.getD j default).mcs_block ≠ 0 ↔ next_differs ws j)) ∧
    st2.trace = st.trace ++ acq_events i st.mcs_block_current ws ∧
    (∀ a, (st2.mem a).xct_id = (st.mem a).xct_id) ∧
    (∀ a, (st2.mem a).lock.locked = true ↔
      ((st.mem a).lock.locked = true ∨
        ∃ u ∈ ws2, u.owner_id_address = a ∧ u.mcs_block ≠ 0)) := by
  induction ws with
  | nil =>
    intro st i ws2 st2 _ h
    rw [lock_pass.eq_1] at h
    cases h
    refine ⟨rfl, fun j => ⟨rfl, rfl, rfl⟩, fun j hj => by simp at hj, by simp [acq_events],
      fun a => rfl, fun a => ?_⟩
    simp
  | cons w rest ih =>
    intro st i ws2 st2 hmcs h
    rcases rest with _ | ⟨w2, rest2⟩
    · rw [lock_pass.eq_3, if_neg (by simp)] at h
      simp only [lock_pass.eq_1] at h
      by_cases hflag : (acquire_one st i w).2.2 = true
      · rw [if_pos hflag] at h
        cases h
      · rw [if_neg hflag] at h
        cases h
        refine ⟨by simp, ?_, ?_, ?_, ?_, ?_⟩
        · intro j
          rcases j with _ | j
          · simp [acquire_one_fst]
          · simp
        · intro j hj
          simp only [List.length_singleton] at hj
          have hj0 : j = 0 := by omega
          subst hj0
          simp only [List.getD_cons_zero, acquire_one_fst]
          constructor
          · intro _
            exact next_differs_singleton w
          · intro _
            simp
        · rw [acquire_one_trace]
          simp [acq_events]
        · intro a
          rw [acquire_one_mem]
          by_cases ha : a = w.owner_id_address
          · subst ha
            simp [Memory.set_same]
          · rw [Memory.set_other _ _ _ _ ha]
        · intro a
          rw [acquire_one_mem]
          by_cases ha : a = w.owner_id_address
          · subst ha
            simp only [Memory.set_same]
            constructor
            · intro _
              right
              refine ⟨(acquire_one st i w).1, by simp, ?_, ?_⟩
              · rw [acquire_one_fst]
              · rw [acquire_one_fst]
                simp
            · intro _
              trivial
          · rw [Memory.set_other _ _ _ _ ha]
            constructor
            · intro hl
              exact Or.inl hl
            · rintro (hl | ⟨u, hu, hua, _⟩)
              · exact hl
              · simp only [List.mem_singleton] at hu
                subst hu
                rw [acquire_one_fst] at hua
                exact absurd hua.symm ha
    · rw [lock_pass.eq_2] at h
      by_cases haddr : w.owner_id_address = w2.owner_id_address
      · rw [if_pos (by simp [haddr])] at h
        cases hrec : lock_pass st (i + 1) (w2 :: rest2) with
        | retry ws3 st3 =>
          rw [hrec] at h
          cases h
        | done ws3 st3 =>
          rw [hrec] at h
          have h2 : LockPass.done (w :: ws3) st3 = LockPass.done ws2 st2 := h
          injection h2 with hws hst
          subst hws
          subst hst
          obtain ⟨ihl, ihsk, ihm, iht, ihx, ihlk⟩ :=
            ih st (i + 1) ws3 st3 (fun u hu => hmcs u (List.mem_cons_of_mem w hu)) hrec
          refine ⟨by simp [ihl], ?_, ?_, ?_, ihx, ?_⟩
          · intro j
            rcases j with _ | j
            · simp
            · simpa using ihsk j
          · intro j hj
            rcases j with _ | j
            · simp only [List.getD_cons_zero]
              rw [hmcs w (List.mem_cons_self w _)]
              constructor
              · intro hc
                exact absurd rfl hc
              · intro hnd
                rw [next_differs_cons_cons_zero] at hnd
                exact absurd haddr.symm hnd
            · simp only [List.getD_cons_succ]
              rw [next_differs_cons_succ]
              exact ihm j (by simpa using Nat.lt_of_succ_lt_succ hj)
          · rw [iht]
            rw [acq_events.eq_2, if_pos (by simp [haddr])]
          · intro a
            rw [ihlk a]
            constructor
            · rintro (hl | ⟨u, hu, hp⟩)
              · exact Or.inl hl
              · exact Or.inr ⟨u, List.mem_cons_of_mem w hu, hp⟩
            · rintro (hl | ⟨u, hu, hp⟩)
              · exact Or.inl hl
              · rcases List.mem_cons.mp hu with hu0 | hu0
                · subst hu0
                  rw [hmcs u (List.mem_cons_self u _)] at hp
                  exact absurd rfl hp.2
                · exact Or.inr ⟨u, hu0, hp⟩
      · rw [if_neg (by simp [haddr])] at h
        by_cases hflag : (acquire_one st i w).2.2 = true
        · simp only [hflag, if_true] at h
          cases h
        · simp only [hflag, Bool.false_eq_true, if_false] at h
          cases hrec : lock_pass (acquire_one st i w).2.1 (i + 1) (w2 :: rest2) with
          | retry ws3 st3 =>
            rw [hrec] at h
            cases h
          | done ws3 st3 =>
            rw [hrec] at h
            have h2 : LockPass.done ((acquire_one st i w).1 :: ws3) st3 =
                LockPass.done ws2 st2 := h
            injection h2 with hws hst
            subst hws
            subst hst
            obtain ⟨ihl, ihsk, ihm, iht, ihx, ihlk⟩ :=
              ih (acquire_one st i w).2.1 (i + 1) ws3 st3
                (fun u hu => hmcs u (List.mem_cons_of_mem w hu)) hrec
            refine ⟨by simp [ihl], ?_, ?_, ?_, ?_, ?_⟩
            · intro j
              rcases j with _ | j
              · simp [acquire_one_fst]
              · simpa using ihsk j
            · intro j hj
              rcases j with _ | j
              · simp only [List.getD_cons_zero, acquire_one_fst]
                constructor
                · intro _
                  rw [next_differs_cons_cons_zero]
                  exact fun hc => haddr hc.symm
                · intro _
                  simp
              · simp only [List.getD_cons_succ]
                rw [next_differs_cons_succ]
                exact ihm j (by simpa using Nat.lt_of_succ_lt_succ hj)
            · rw [iht, acquire_one_trace, acquire_one_mcs]
              rw [acq_events.eq_2, if_neg (by simp [haddr])]
              simp
            · intro a
              rw [ihx a, acquire_one_mem]
              by_cases ha : a = w.owner_id_address
              · subst ha
                simp [Memory.set_same]
              · rw [Memory.set_other _ _ _ _ ha]
            · intro a
              rw [ihlk a, acquire_one_mem]
              by_cases ha : a = w.owner_id_address
              · subst ha
                simp only [Memory.set_same]
                constructor
                · intro _
                  right
                  refine ⟨(acquire_one st i w).1, List.mem_cons_self _ _, ?_, ?_⟩
                  · rw [acquire_one_fst]
                  · rw [acquire_one_fst]
                    simp
                · intro _
                  simp
              · rw [Memory.set_other _ _ _ _ ha]
                constructor
                · rintro (hl | ⟨u, hu, hp⟩)
                  · exact Or.inl hl
                  · exact Or.inr ⟨u, List.mem_cons_of_mem _ hu, hp⟩
                · rintro (hl | ⟨u, hu, hp⟩)
                  · exact Or.inl hl
                  · rcases List.mem_cons.mp hu with hu0 | hu0
                    · subst hu0
                      rw [acquire_one_fst] at hp
                      exact absurd hp.1.symm ha
                    · exact Or.inr ⟨u, hu0, hp⟩

end Foedus

namespace Foedus

/-- With no MOVED bit anywhere, the tracking pre-pass is the identity. -/
theorem track_pre_pass_no_moved (senv : StorageEnv) (mem : Memory)
    (hmoved : ∀ a, (mem a).is_moved = false) :
    ∀ ws : List WriteXctAccess, track_pre_pass senv mem ws = (true, ws) := by
  intro ws
  induction ws with
  | nil => rfl
  | cons w rest ih =>
    unfold track_pre_pass
    rw [if_neg (by simp [hmoved])]
    rw [ih]

/-- acquire_one only touches the lock word, so MOVED bits survive it. -/
theorem acquire_one_preserves_no_moved (st : LockSt) (i : Nat) (w : WriteXctAccess)
    (hmoved : ∀ a, (st.mem a).is_moved = false) :
    ∀ a, ((acquire_one st i w).2.1.mem a).is_moved = false := by
  intro a
  rw [acquire_one_mem]
  by_cases ha : a = w.owner_id_address
  · subst ha
    simp only [Memory.set_same]
    simpa [LockableXctId.is_moved] using hmoved w.owner_id_address
  · rw [Memory.set_other _ _ _ _ ha]
    exact hmoved a

/-- With no MOVED bit anywhere, the lock loop never retries. -/
theorem lock_pass_no_moved_done (ws : List WriteXctAccess) :
    ∀ (st : LockSt) (i : Nat), (∀ a, (st.mem a).is_moved = false) →
    ∃ ws2 st2, lock_pass st i ws = .done ws2 st2 := by
  induction ws with
  | nil =>
    intro st i _
    exact ⟨[], st, lock_pass.eq_1 st i⟩
  | cons w rest ih =>
    intro st i hmoved
    have hflag : ¬ ((acquire_one st i w).2.2 = true) := by
      rw [acquire_one_flag]
      simp [hmoved]
    rcases rest with _ | ⟨w2, rest2⟩
    · refine ⟨[(acquire_one st i w).1], (acquire_one st i w).2.1, ?_⟩
      rw [lock_pass.eq_3, if_neg (by simp)]
      simp only [lock_pass.eq_1]
      rw [if_neg hflag]
    · by_cases haddr : w.owner_id_address = w2.owner_id_address
      · obtain ⟨ws2, st2, hrec⟩ := ih st (i + 1) hmoved
        refine ⟨w :: ws2, st2, ?_⟩
        rw [lock_pass.eq_2, if_pos (by simp [haddr]), hrec]
      · obtain ⟨ws2, st2, hrec⟩ := ih (acquire_one st i w).2.1 (i + 1)
          (acquire_one_preserves_no_moved st i w hmoved)
        refine ⟨(acquire_one st i w).1 :: ws2, st2, ?_⟩
        rw [lock_pass.eq_2, if_neg (by simp [haddr])]
        simp only [hflag, Bool.false_eq_true, if_false]
        rw [hrec]

/-- mergeSort by WriteXctAccess::compare sorts by owner address. -/
theorem sort_write_set_sorted (ws : List WriteXctAccess) :
    (sort_write_set ws).Pairwise fun u v => u.owner_id_address ≤ v.owner_id_address := by
  have htrans : ∀ a b c : WriteXctAccess, WriteXctAccess.compare a b →
      WriteXctAccess.compare b c → WriteXctAccess.compare a c := by
    intro a b c hab hbc
    simp only [WriteXctAccess.compare, decide_eq_true_eq] at hab hbc ⊢
    exact le_trans hab hbc
  have htotal : ∀ a b : WriteXctAccess,
      WriteXctAccess.compare a b || WriteXctAccess.compare b a := by
    intro a b
    simp only [WriteXctAccess.compare]
    by_cases hab : a.owner_id_address ≤ b.owner_id_address
    · simp [hab]
    · simp [hab, le_of_not_le hab]
  have h := List.sorted_mergeSort htrans htotal ws
  unfold sort_write_set
  refine h.imp ?_
  intro a b hab
  simpa [WriteXctAccess.compare] using hab

theorem sort_write_set_perm (ws : List WriteXctAccess) :
    (sort_write_set ws).Perm ws := List.mergeSort_perm ws _

/-- Pairwise address-sortedness transfers along pointwise address
equality. -/
theorem pairwise_addr_of_pointwise (l1 l2 : List WriteXctAccess)
    (hlen : l2.length = l1.length)
    (hpt : ∀ j, (l2.getD j default).owner_id_address = (l1.getD j default).owner_id_address)
    (h : l1.Pairwise fun u v => u.owner_id_address ≤ v.owner_id_address) :
    l2.Pairwise fun u v => u.owner_id_address ≤ v.owner_id_address := by
  rw [List.pairwise_iff_getElem] at h ⊢
  intro i j hi hj hij
  have hi1 : i < l1.length := by omega
  have hj1 : j < l1.length := by omega
  have hgi := hpt i
  have hgj := hpt j
  rw [List.getD_eq_getElem l2 default hi, List.getD_eq_getElem l1 default hi1] at hgi
  rw [List.getD_eq_getElem l2 default hj, List.getD_eq_getElem l1 default hj1] at hgj
  rw [hgi, hgj]
  exact h i j hi1 hj1 hij

/-- On an address-sorted write set, the run-end test used by the code is
exactly "last entry of this address". -/
theorem sorted_next_differs_iff_last (ws : List WriteXctAccess)
    (hs : ws.Pairwise fun u v => u.owner_id_address ≤ v.owner_id_address)
    (j : Nat) (hj : j < ws.length) :
    next_differs ws j ↔
      ∀ k, j < k → k < ws.length →
        (ws.getD k default).owner_id_address ≠ (ws.getD j default).owner_id_address := by
  rw [List.pairwise_iff_getElem] at hs
  constructor
  · intro hnd k hjk hk hck
    have hj1 : j + 1 < ws.length := Nat.lt_of_le_of_lt (Nat.succ_le_of_lt hjk) hk
    have hnd2 : (ws.getD (j + 1) default).owner_id_address ≠
        (ws.getD j default).owner_id_address := by
      rcases hnd with hnd | hnd
      · exact absurd hnd (by omega)
      · exact hnd
    apply hnd2
    rw [List.getD_eq_getElem ws default hj1, List.getD_eq_getElem ws default hj]
    rw [List.getD_eq_getElem ws default hk, List.getD_eq_getElem ws default hj] at hck
    have h1 : ws[j].owner_id_address ≤ ws[j + 1].owner_id_address :=
      hs j (j + 1) hj hj1 (Nat.lt_succ_self j)
    have h2 : ws[j + 1].owner_id_address ≤ ws[k].owner_id_address := by
      rcases Nat.lt_or_ge (j + 1) k with hlt | hge
      · exact hs (j + 1) k hj1 hk hlt
      · have he : j + 1 = k := le_antisymm (Nat.succ_le_of_lt hjk) hge
        subst he
        exact le_refl _
    rw [hck] at h2
    exact le_antisymm h2 h1
  · intro hall
    by_cases hj1 : j + 1 = ws.length
    · exact Or.inl hj1
    · exact Or.inr (hall (j + 1) (Nat.lt_succ_self j) (by omega))

end Foedus

namespace Foedus

/-- Recognizes a lock-acquisition event on owner address a. -/
def is_acquire_on (a : Addr) : Ev → Bool
  | .acquire _ x _ => x = a
  | _ => false

/-- Recognizes an owner-word finalization event at write-set position j. -/
def is_finalize_at (j : Nat) : Ev → Bool
  | .finalize k _ _ => k = j
  | _ => false

/-- Recognizes a lock-release event at write-set position j. -/
def is_release_at (j : Nat) : Ev → Bool
  | .release k _ _ => k = j
  | _ => false

/-- The write-set position an event is tagged with. -/
def ev_idx : Ev → Nat
  | .acquire k _ _ => k
  | .release k _ _ => k
  | .finalize k _ _ => k
  | .applyRec k _ => k

/-- On a sorted write set, the head's address does not recur in the tail
once the run ends. -/
theorem head_addr_not_in_rest (w w2 : WriteXctAccess) (rest2 : List WriteXctAccess)
    (hs : (w :: w2 :: rest2).Pairwise fun u v => u.owner_id_address ≤ v.owner_id_address)
    (hne : w.owner_id_address ≠ w2.owner_id_address) :
    w.owner_id_address ∉ addrs_of (w2 :: rest2) := by
  rcases List.pairwise_cons.mp hs with ⟨hw, hs2⟩
  rcases List.pairwise_cons.mp hs2 with ⟨hw2, _⟩
  intro hmem
  simp only [addrs_of, List.mem_map] at hmem
  obtain ⟨u, hu, hua⟩ := hmem
  rcases List.mem_cons.mp hu with hu0 | hu0
  · subst hu0
    exact hne hua.symm
  · have h1 : w2.owner_id_address ≤ u.owner_id_address := hw2 u hu0
    have h2 : w.owner_id_address ≤ w2.owner_id_address := hw w2 (List.mem_cons_self _ _)
    rw [hua] at h1
    exact hne (le_antisymm h2 h1)

@[simp] theorem is_acquire_on_acquire (a x : Addr) (i b : Nat) :
    is_acquire_on a (.acquire i x b) = decide (x = a) := rfl

theorem mem_addrs_of_cons (a : Addr) (w : WriteXctAccess) (rest : List WriteXctAccess) :
    a ∈ addrs_of (w :: rest) ↔ a = w.owner_id_address ∨ a ∈ addrs_of rest := by
  simp only [addrs_of_cons, List.mem_cons]

/-- On a sorted write set, a retry-free lock pass acquires each present
address exactly once and absent addresses never. -/
theorem acq_events_countP (ws : List WriteXctAccess)
    (hs : ws.Pairwise fun u v => u.owner_id_address ≤ v.owner_id_address) :
    ∀ (i b : Nat) (a : Addr),
      (acq_events i b ws).countP (is_acquire_on a) =
        if a ∈ addrs_of ws then 1 else 0 := by
  induction ws with
  | nil =>
    intro i b a
    simp [acq_events]
  | cons w rest ih =>
    intro i b a
    rcases List.pairwise_cons.mp hs with ⟨hw, hs2⟩
    rcases rest with _ | ⟨w2, rest2⟩
    · rw [acq_events.eq_3, if_neg (by simp)]
      rw [List.countP_cons]
      simp only [acq_events, List.countP_nil, is_acquire_on_acquire, Nat.zero_add]
      by_cases ha : w.owner_id_address = a
      · rw [if_pos (by simp [ha]), if_pos (by rw [mem_addrs_of_cons]; exact Or.inl ha.symm)]
      · rw [if_neg (by simp [ha]), if_neg ?_]
        rw [mem_addrs_of_cons]
        rintro (hc | hc)
        · exact ha hc.symm
        · simp [addrs_of] at hc
    · by_cases haddr : w.owner_id_address = w2.owner_id_address
      · rw [acq_events.eq_2, if_pos (by simp [haddr])]
        rw [ih hs2 (i + 1) b a]
        by_cases hmem : a ∈ addrs_of (w2 :: rest2)
        · rw [if_pos hmem, if_pos (by rw [mem_addrs_of_cons]; exact Or.inr hmem)]
        · rw [if_neg hmem, if_neg ?_]
          rw [mem_addrs_of_cons]
          rintro (hc | hc)
          · exact hmem (by rw [mem_addrs_of_cons]; exact Or.inl (by rw [hc, haddr]))
          · exact hmem hc
      · rw [acq_events.eq_2, if_neg (by simp [haddr])]
        rw [List.countP_cons]
        rw [ih hs2 (i + 1) (b + 1) a]
        simp only [is_acquire_on_acquire]
        by_cases ha : w.owner_id_address = a
        · have hni : a ∉ addrs_of (w2 :: rest2) := by
            rw [ha.symm]
            exact head_addr_not_in_rest w w2 rest2 hs haddr
          have hd1 : (if decide (w.owner_id_address = a) = true then 1 else 0) = 1 := by
            simp [ha]
          rw [hd1, if_neg hni, if_pos (by rw [mem_addrs_of_cons]; exact Or.inl ha.symm)]
        · have hd0 : (if decide (w.owner_id_address = a) = true then 1 else 0) = 0 := by
            simp [ha]
          rw [hd0]
          by_cases hmem : a ∈ addrs_of (w2 :: rest2)
          · rw [if_pos hmem, if_pos (by rw [mem_addrs_of_cons]; exact Or.inr hmem)]
          · rw [if_neg hmem, if_neg ?_]
            rw [mem_addrs_of_cons]
            rintro (hc | hc)
            · exact ha hc.symm
            · exact hmem hc

end Foedus

namespace Foedus

@[simp] theorem is_finalize_at_applyRec (j i : Nat) (a : Addr) :
    is_finalize_at j (.applyRec i a) = false := rfl

@[simp] theorem is_finalize_at_acquire (j i : Nat) (a : Addr) (b : Nat) :
    is_finalize_at j (.acquire i a b) = false := rfl

@[simp] theorem is_finalize_at_release (j i : Nat) (a : Addr) (b : Nat) :
    is_finalize_at j (.release i a b) = false := rfl

@[simp] theorem is_finalize_at_finalize (j i : Nat) (a : Addr) (x : XctId) :
    is_finalize_at j (.finalize i a x) = decide (i = j) := rfl

@[simp] theorem is_release_at_applyRec (j i : Nat) (a : Addr) :
    is_release_at j (.applyRec i a) = false := rfl

@[simp] theorem is_release_at_acquire (j i : Nat) (a : Addr) (b : Nat) :
    is_release_at j (.acquire i a b) = false := rfl

@[simp] theorem is_release_at_finalize (j i : Nat) (a : Addr) (x : XctId) :
    is_release_at j (.finalize i a x) = false := rfl

@[simp] theorem is_release_at_release (j i : Nat) (a : Addr) (b : Nat) :
    is_release_at j (.release i a b) = decide (i = j) := rfl

/-- Every event of the apply loop's expected stream from position i is
tagged with a position at least i. -/
theorem apply_expected_events_idx_ge (nid ndid : XctId) (ws : List WriteXctAccess) :
    ∀ i, ∀ e ∈ apply_expected_events nid ndid i ws, i ≤ ev_idx e := by
  induction ws with
  | nil =>
    intro i e he
    simp [apply_expected_events] at he
  | cons w rest ih =>
    intro i e he
    unfold apply_expected_events at he
    rcases List.mem_cons.mp he with he0 | he0
    · subst he0
      simp [ev_idx]
    · rcases List.mem_append.mp he0 with he1 | he1
      · split at he1
        · rcases List.mem_cons.mp he1 with he2 | he2
          · subst he2
            simp [ev_idx]
          · rcases List.mem_cons.mp he2 with he3 | he3
            · subst he3
              simp [ev_idx]
            · simp at he3
        · simp at he1
      · exact le_trans (Nat.le_succ i) (ih (i + 1) e he1)

/-- In the apply loop's event stream, the owner-word finalization and the
lock release occur at position j exactly when j is a run-end entry, and
then exactly once. -/
theorem apply_expected_events_counts (nid ndid : XctId) (ws : List WriteXctAccess) :
    ∀ i j, j < ws.length →
      (apply_expected_events nid ndid i ws).countP (is_finalize_at (i + j)) =
        (if next_differs ws j then 1 else 0) ∧
      (apply_expected_events nid ndid i ws).countP (is_release_at (i + j)) =
        (if next_differs ws j then 1 else 0) := by
  induction ws with
  | nil =>
    intro i j hj
    simp at hj
  | cons w rest ih =>
    intro i j hj
    have hzero_fin : ∀ k, k ≤ i →
        (apply_expected_events nid ndid (i + 1) rest).countP (is_finalize_at k) = 0 := by
      intro k hk
      rw [List.countP_eq_zero]
      intro e he
      have := apply_expected_events_idx_ge nid ndid rest (i + 1) e he
      cases e with
      | finalize m a x =>
        simp only [is_finalize_at_finalize, decide_eq_true_eq]
        simp only [ev_idx] at this
        omega
      | acquire m a b => simp
      | release m a b => simp
      | applyRec m a => simp
    have hzero_rel : ∀ k, k ≤ i →
        (apply_expected_events nid ndid (i + 1) rest).countP (is_release_at k) = 0 := by
      intro k hk
      rw [List.countP_eq_zero]
      intro e he
      have := apply_expected_events_idx_ge nid ndid rest (i + 1) e he
      cases e with
      | release m a b =>
        simp only [is_release_at_release, decide_eq_true_eq]
        simp only [ev_idx] at this
        omega
      | acquire m a b => simp
      | finalize m a x => simp
      | applyRec m a => simp
    rcases j with _ | j
    · rcases rest with _ | ⟨w2, rest2⟩
      · rw [apply_expected_events.eq_3, if_pos rfl]
        constructor
        · simp [apply_expected_events, next_differs_singleton w]
        · simp [apply_expected_events, next_differs_singleton w]
      · by_cases haddr : w.owner_id_address = w2.owner_id_address
        · rw [apply_expected_events.eq_2, if_neg (by simp [haddr])]
          have hnd : ¬ next_differs (w :: w2 :: rest2) 0 := by
            rw [next_differs_cons_cons_zero]
            simp [haddr]
          rw [if_neg hnd]
          constructor
          · simp only [List.countP_cons, List.nil_append, is_finalize_at_applyRec]
            rw [Nat.add_zero]
            rw [hzero_fin i (le_refl i)]
            simp
          · simp only [List.countP_cons, List.nil_append, is_release_at_applyRec]
            rw [Nat.add_zero]
            rw [hzero_rel i (le_refl i)]
            simp
        · rw [apply_expected_events.eq_2, if_pos (by simp [haddr])]
          have hnd : next_differs (w :: w2 :: rest2) 0 := by
            rw [next_differs_cons_cons_zero]
            exact fun hc => haddr hc.symm
          rw [if_pos hnd]
          constructor
          · simp only [List.cons_append, List.countP_cons, List.nil_append,
              is_finalize_at_applyRec, is_finalize_at_finalize, is_finalize_at_release]
            rw [Nat.add_zero]
            rw [hzero_fin i (le_refl i)]
            simp
          · simp only [List.cons_append, List.countP_cons, List.nil_append,
              is_release_at_applyRec, is_release_at_finalize, is_release_at_release]
            rw [Nat.add_zero]
            rw [hzero_rel i (le_refl i)]
            simp
    · have hj2 : j < rest.length := by
        simp only [List.length_cons] at hj
        omega
      obtain ⟨ihf, ihr⟩ := ih (i + 1) j hj2
      have hshift : i + (j + 1) = (i + 1) + j := by omega
      have hxfin : ∀ x : XctId, is_finalize_at (i + (j + 1)) (.finalize i w.owner_id_address x) = false := by
        intro x
        simp only [is_finalize_at_finalize, decide_eq_false_iff_not]
        omega
      have hxrel : is_release_at (i + (j + 1)) (.release i w.owner_id_address w.mcs_block) = false := by
        simp only [is_release_at_release, decide_eq_false_iff_not]
        omega
      unfold apply_expected_events
      simp only [next_differs_cons_succ]
      constructor
      · split
        · simp only [List.cons_append, List.countP_cons, List.nil_append,
            is_finalize_at_applyRec, hxfin, is_finalize_at_release]
          rw [hshift, ihf]
          simp
        · simp only [List.countP_cons, List.nil_append, is_finalize_at_applyRec]
          rw [hshift, ihf]
          simp
      · split
        · simp only [List.cons_append, List.countP_cons, List.nil_append,
            is_release_at_applyRec, hxrel, is_release_at_finalize]
          rw [hshift, ihr]
          simp
        · simp only [List.countP_cons, List.nil_append, is_release_at_applyRec]
          rw [hshift, ihr]
          simp

end Foedus

namespace Foedus

/-- next_differs only depends on addresses, pointwise. -/
theorem next_differs_congr (l1 l2 : List WriteXctAccess)
    (hlen : l2.length = l1.length)
    (hpt : ∀ j, (l2.getD j default).owner_id_address = (l1.getD j default).owner_id_address) :
    ∀ j, next_differs l1 j ↔ next_differs l2 j := by
  intro j
  unfold next_differs
  rw [hlen, hpt, hpt]

/-- addrs_of only depends on addresses, pointwise. -/
theorem addrs_of_eq_of_pointwise (l1 l2 : List WriteXctAccess)
    (hlen : l2.length = l1.length)
    (hpt : ∀ j, (l2.getD j default).owner_id_address = (l1.getD j default).owner_id_address) :
    addrs_of l2 = addrs_of l1 := by
  apply List.ext_getElem
  · simp [addrs_of, hlen]
  · intro j h2 h1
    simp only [addrs_of, List.getElem_map]
    have := hpt j
    rw [List.getD_eq_getElem l2 default (by simpa [addrs_of] using h2),
      List.getD_eq_getElem l1 default (by simpa [addrs_of] using h1)] at this
    exact this

/-- C2: on the read-write commit path with no MOVED conflicts, Phase 1
sorts the write set by owner address ascending and acquires the MCS key
lock of each distinct address exactly once, at the last entry of that
address in sorted order (earlier duplicates keep mcs_block_ = 0); and the
Phase 3 loop finalizes the owner word and releases the key lock exactly
at those lock-holding last entries and nowhere else. -/
theorem C2_lock_and_unlock_at_last (senv : StorageEnv) (fuel : Nat) (w : World)
    (hmoved : ∀ a, (w.mem a).is_moved = false)
    (hmcs : ∀ u ∈ w.xct.write_set, u.mcs_block = 0) :
    ∃ ws2 st2,
      precommit_xct_lock_go senv (fuel + 1)
        { mem := w.mem, mcs_block_current := w.xct.mcs_block_current,
          max_xct_id := XctId.set kEpochInitialDurable 1, trace := [] }
        w.xct.write_set = (.success, ws2, st2) ∧
      ws2.Pairwise (fun u v => u.owner_id_address ≤ v.owner_id_address) ∧
      (∀ j, j < ws2.length →
        ((ws2.getD j default).mcs_block ≠ 0 ↔
          ∀ k, j < k → k < ws2.length →
            (ws2.getD k default).owner_id_address ≠ (ws2.getD j default).owner_id_address)) ∧
      (∀ a, st2.trace.countP (is_acquire_on a) = if a ∈ addrs_of ws2 then 1 else 0) ∧
      (∀ nid ndid mem tr j, j < ws2.length →
        (((apply_loop nid ndid none 0 mem tr ws2).2.2.drop tr.length).countP
            (is_finalize_at j) =
          if (ws2.getD j default).mcs_block ≠ 0 then 1 else 0) ∧
        (((apply_loop nid ndid none 0 mem tr ws2).2.2.drop tr.length).countP
            (is_release_at j) =
          if (ws2.getD j default).mcs_block ≠ 0 then 1 else 0)) := by
  set st0 : LockSt :=
    { mem := w.mem
      mcs_block_current := w.xct.mcs_block_current
      max_xct_id := XctId.set kEpochInitialDurable 1
      trace := [] } with hst0
  have hsorted1 := sort_write_set_sorted w.xct.write_set
  have hmcs_sorted : ∀ u ∈ sort_write_set w.xct.write_set, u.mcs_block = 0 := by
    intro u hu
    exact hmcs u ((sort_write_set_perm w.xct.write_set).mem_iff.mp hu)
  obtain ⟨ws2, st2, hdone⟩ :=
    lock_pass_no_moved_done (sort_write_set w.xct.write_set) st0 0 hmoved
  obtain ⟨hlen, hsk, hmb, htr, _hx, _hlk⟩ :=
    lock_pass_done_spec (sort_write_set w.xct.write_set) st0 0 ws2 st2 hmcs_sorted hdone
  have hpt : ∀ j, (ws2.getD j default).owner_id_address =
      ((sort_write_set w.xct.write_set).getD j default).owner_id_address :=
    fun j => (hsk j).2.1
  have hsorted2 : ws2.Pairwise (fun u v => u.owner_id_address ≤ v.owner_id_address) :=
    pairwise_addr_of_pointwise (sort_write_set w.xct.write_set) ws2 hlen hpt hsorted1
  have hnd := next_differs_congr (sort_write_set w.xct.write_set) ws2 hlen hpt
  have hgo : precommit_xct_lock_go senv (fuel + 1) st0 w.xct.write_set =
      (.success, ws2, st2) := by
    unfold precommit_xct_lock_go
    rw [track_pre_pass_no_moved senv st0.mem hmoved w.xct.write_set]
    simp only [Bool.not_true, Bool.false_eq_true, if_false]
    rw [hdone]
  refine ⟨ws2, st2, hgo, hsorted2, ?_, ?_, ?_⟩
  · intro j hj
    have hj1 : j < (sort_write_set w.xct.write_set).length := by
      rw [hlen.symm]
      exact hj
    rw [hmb j hj1, hnd j]
    exact sorted_next_differs_iff_last ws2 hsorted2 j hj
  · intro a
    rw [htr]
    have h0 : st0.trace = [] := rfl
    rw [h0, List.nil_append]
    rw [acq_events_countP (sort_write_set w.xct.write_set) hsorted1 0 st0.mcs_block_current a]
    rw [addrs_of_eq_of_pointwise (sort_write_set w.xct.write_set) ws2 hlen hpt]
  · intro nid ndid mem tr j hj
    have htr2 := (apply_loop_list_spec nid ndid ws2 none 0 mem tr).1
    rw [htr2, List.drop_left]
    have hj1 : j < (sort_write_set w.xct.write_set).length := by
      rw [hlen.symm]
      exact hj
    have hcnt := apply_expected_events_counts nid ndid ws2 0 j hj
    rw [Nat.zero_add] at hcnt
    have hiff : ((ws2.getD j default).mcs_block ≠ 0) ↔ next_differs ws2 j := by
      rw [hmb j hj1, hnd j]
    constructor
    · rw [hcnt.1, if_congr hiff.symm rfl rfl]
    · rw [hcnt.2, if_congr hiff.symm rfl rfl]

end Foedus

namespace Foedus

/-- precommit_xct_unlock zeroes every MCS block, keeps entry identity,
preserves owner XctIds, and leaves an owner locked only if it was locked
and no entry held its lock. -/
theorem unlock_go_spec (ws : List WriteXctAccess) :
    ∀ (st : LockSt) (i : Nat),
    (∀ u ∈ (unlock_go st i ws).1, u.mcs_block = 0) ∧
    (∀ a, ((unlock_go st i ws).2.mem a).lock.locked = true ↔
      ((st.mem a).lock.locked = true ∧
        ∀ u ∈ ws, ¬(u.owner_id_address = a ∧ u.mcs_block ≠ 0))) ∧
    (∀ a, ((unlock_go st i ws).2.mem a).xct_id = (st.mem a).xct_id) ∧
    ((unlock_go st i ws).1.map fun u => (u.storage_id, u.owner_id_address, u.log_entry)) =
      (ws.map fun u => (u.storage_id, u.owner_id_address, u.log_entry)) := by
  induction ws with
  | nil =>
    intro st i
    refine ⟨fun u hu => by simp [unlock_go] at hu, fun a => by simp [unlock_go], ?_, ?_⟩
    · intro a
      rfl
    · rfl
  | cons w rest ih =>
    intro st i
    by_cases hb : w.mcs_block ≠ 0
    · have hred : unlock_go st i (w :: rest) =
          ({ w with mcs_block := 0 } ::
            (unlock_go { st with
                mem := Memory.set st.mem w.owner_id_address
                  { st.mem w.owner_id_address with lock := ⟨false⟩ },
                trace := st.trace ++ [.release i w.owner_id_address w.mcs_block] }
              (i + 1) rest).1,
           (unlock_go { st with
                mem := Memory.set st.mem w.owner_id_address
                  { st.mem w.owner_id_address with lock := ⟨false⟩ },
                trace := st.trace ++ [.release i w.owner_id_address w.mcs_block] }
              (i + 1) rest).2) := by
        rw [unlock_go]
        rw [if_pos hb]
      obtain ⟨ih1, ih2, ih3, ih4⟩ := ih { st with
          mem := Memory.set st.mem w.owner_id_address
            { st.mem w.owner_id_address with lock := ⟨false⟩ },
          trace := st.trace ++ [.release i w.owner_id_address w.mcs_block] } (i + 1)
      refine ⟨?_, ?_, ?_, ?_⟩
      · intro u hu
        rw [hred] at hu
        rcases List.mem_cons.mp hu with hu0 | hu0
        · rw [hu0]
        · exact ih1 u hu0
      · intro a
        rw [hred]
        rw [ih2 a]
        dsimp only
        by_cases ha : a = w.owner_id_address
        · subst ha
          simp only [Memory.set_same]
          constructor
          · rintro ⟨hc, _⟩
            simp at hc
          · rintro ⟨_, hall⟩
            exact absurd ⟨rfl, hb⟩ (hall w (List.mem_cons_self w rest))
        · rw [Memory.set_other _ _ _ _ ha]
          constructor
          · rintro ⟨hl, hall⟩
            refine ⟨hl, ?_⟩
            intro u hu
            rcases List.mem_cons.mp hu with hu0 | hu0
            · subst hu0
              rintro ⟨hua, _⟩
              exact ha hua.symm
            · exact hall u hu0
          · rintro ⟨hl, hall⟩
            exact ⟨hl, fun u hu => hall u (List.mem_cons_of_mem w hu)⟩
      · intro a
        rw [hred, ih3 a]
        dsimp only
        by_cases ha : a = w.owner_id_address
        · subst ha
          simp only [Memory.set_same]
        · rw [Memory.set_other _ _ _ _ ha]
      · rw [hred]
        simp only [List.map_cons, ih4]
    · have hred : unlock_go st i (w :: rest) =
          (w :: (unlock_go st (i + 1) rest).1, (unlock_go st (i + 1) rest).2) := by
        rw [unlock_go]
        rw [if_neg hb]
      obtain ⟨ih1, ih2, ih3, ih4⟩ := ih st (i + 1)
      simp only [Ne, not_not] at hb
      refine ⟨?_, ?_, ?_, ?_⟩
      · intro u hu
        rw [hred] at hu
        rcases List.mem_cons.mp hu with hu0 | hu0
        · rw [hu0, hb]
        · exact ih1 u hu0
      · intro a
        rw [hred, ih2 a]
        constructor
        · rintro ⟨hl, hall⟩
          refine ⟨hl, ?_⟩
          intro u hu
          rcases List.mem_cons.mp hu with hu0 | hu0
          · subst hu0
            rintro ⟨_, hc⟩
            exact hc hb
          · exact hall u hu0
        · rintro ⟨hl, hall⟩
          exact ⟨hl, fun u hu => hall u (List.mem_cons_of_mem w hu)⟩
      · intro a
        rw [hred]
        exact ih3 a
      · rw [hred]
        simp only [List.map_cons, ih4]

end Foedus

namespace Foedus

/-- What a lock pass that hit a moved-bit conflict (and will retry)
establishes: owner XctIds are untouched and an owner is locked exactly
when it was already locked or one of the (partially processed) entries
holds its lock. -/
theorem lock_pass_retry_spec (ws : List WriteXctAccess) :
    ∀ (st : LockSt) (i : Nat) (ws2 : List WriteXctAccess) (st2 : LockSt),
    (∀ u ∈ ws, u.mcs_block = 0) →
    lock_pass st i ws = .retry ws2 st2 →
    (∀ a, (st2.mem a).xct_id = (st.mem a).xct_id) ∧
    (∀ a, (st2.mem a).lock.locked = true ↔
      ((st.mem a).lock.locked = true ∨
        ∃ u ∈ ws2, u.owner_id_address = a ∧ u.mcs_block ≠ 0)) := by
  induction ws with
  | nil =>
    intro st i ws2 st2 _ h
    rw [lock_pass.eq_1] at h
    cases h
  | cons w rest ih =>
    intro st i ws2 st2 hmcs h
    have hacq : ∀ (hflag : (acquire_one st i w).2.2 = true)
        (hws : (acquire_one st i w).1 :: rest = ws2)
        (hst : (acquire_one st i w).2.1 = st2),
        (∀ a, (st2.mem a).xct_id = (st.mem a).xct_id) ∧
        (∀ a, (st2.mem a).lock.locked = true ↔
          ((st.mem a).lock.locked = true ∨
            ∃ u ∈ ws2, u.owner_id_address = a ∧ u.mcs_block ≠ 0)) := by
      intro _ hws hst
      subst hws
      subst hst
      constructor
      · intro a
        rw [acquire_one_mem]
        by_cases ha : a = w.owner_id_address
        · subst ha
          simp [Memory.set_same]
        · rw [Memory.set_other _ _ _ _ ha]
      · intro a
        rw [acquire_one_mem]
        by_cases ha : a = w.owner_id_address
        · subst ha
          simp only [Memory.set_same]
          constructor
          · intro _
            right
            refine ⟨(acquire_one st i w).1, List.mem_cons_self _ _, ?_, ?_⟩
            · rw [acquire_one_fst]
            · rw [acquire_one_fst]
              simp
          · intro _
            trivial
        · rw [Memory.set_other _ _ _ _ ha]
          constructor
          · intro hl
            exact Or.inl hl
          · rintro (hl | ⟨u, hu, hua, hub⟩)
            · exact hl
            · rcases List.mem_cons.mp hu with hu0 | hu0
              · subst hu0
                rw [acquire_one_fst] at hua
                exact absurd hua.symm ha
              · rw [hmcs u (List.mem_cons_of_mem w hu0)] at hub
                exact absurd rfl hub
    rcases rest with _ | ⟨w2, rest2⟩
    · rw [lock_pass.eq_3, if_neg (by simp)] at h
      simp only [lock_pass.eq_1] at h
      by_cases hflag : (acquire_one st i w).2.2 = true
      · rw [if_pos hflag] at h
        have h2 : LockPass.retry [(acquire_one st i w).1] (acquire_one st i w).2.1 =
            LockPass.retry ws2 st2 := h
        injection h2 with hws hst
        exact hacq hflag hws hst
      · rw [if_neg hflag] at h
        cases h
    · rw [lock_pass.eq_2] at h
      by_cases haddr : w.owner_id_address = w2.owner_id_address
      · rw [if_pos (by simp [haddr])] at h
        cases hrec : lock_pass st (i + 1) (w2 :: rest2) with
        | done ws3 st3 =>
          rw [hrec] at h
          cases h
        | retry ws3 st3 =>
          rw [hrec] at h
          have h2 : LockPass.retry (w :: ws3) st3 = LockPass.retry ws2 st2 := h
          injection h2 with hws hst
          subst hws
          subst hst
          obtain ⟨ihx, ihlk⟩ :=
            ih st (i + 1) ws3 st3 (fun u hu => hmcs u (List.mem_cons_of_mem w hu)) hrec
          refine ⟨ihx, ?_⟩
          intro a
          rw [ihlk a]
          constructor
          · rintro (hl | ⟨u, hu, hp⟩)
            · exact Or.inl hl
            · exact Or.inr ⟨u, List.mem_cons_of_mem w hu, hp⟩
          · rintro (hl | ⟨u, hu, hp⟩)
            · exact Or.inl hl
            · rcases List.mem_cons.mp hu with hu0 | hu0
              · subst hu0
                rw [hmcs u (List.mem_cons_self u _)] at hp
                exact absurd rfl hp.2
              · exact Or.inr ⟨u, hu0, hp⟩
      · rw [if_neg (by simp [haddr])] at h
        by_cases hflag : (acquire_one st i w).2.2 = true
        · simp only [hflag, if_true] at h
          have h2 : LockPass.retry ((acquire_one st i w).1 :: w2 :: rest2)
              (acquire_one st i w).2.1 = LockPass.retry ws2 st2 := h
          injection h2 with hws hst
          exact hacq hflag hws hst
        · simp only [hflag, Bool.false_eq_true, if_false] at h
          cases hrec : lock_pass (acquire_one st i w).2.1 (i + 1) (w2 :: rest2) with
          | done ws3 st3 =>
            rw [hrec] at h
            cases h
          | retry ws3 st3 =>
            rw [hrec] at h
            have h2 : LockPass.retry ((acquire_one st i w).1 :: ws3) st3 =
                LockPass.retry ws2 st2 := h
            injection h2 with hws hst
            subst hws
            subst hst
            obtain ⟨ihx, ihlk⟩ :=
              ih (acquire_one st i w).2.1 (i + 1) ws3 st3
                (fun u hu => hmcs u (List.mem_cons_of_mem w hu)) hrec
            constructor
            · intro a
              rw [ihx a, acquire_one_mem]
              by_cases ha : a = w.owner_id_address
              · subst ha
                simp [Memory.set_same]
              · rw [Memory.set_other _ _ _ _ ha]
            · intro a
              rw [ihlk a, acquire_one_mem]
              by_cases ha : a = w.owner_id_address
              · subst ha
                simp only [Memory.set_same]
                constructor
                · intro _
                  right
                  refine ⟨(acquire_one st i w).1, List.mem_cons_self _ _, ?_, ?_⟩
                  · rw [acquire_one_fst]
                  · rw [acquire_one_fst]
                    simp
                · intro _
                  simp
              · rw [Memory.set_other _ _ _ _ ha]
                constructor
                · rintro (hl | ⟨u, hu, hp⟩)
                  · exact Or.inl hl
                  · exact Or.inr ⟨u, List.mem_cons_of_mem _ hu, hp⟩
                · rintro (hl | ⟨u, hu, hp⟩)
                  · exact Or.inl hl
                  · rcases List.mem_cons.mp hu with hu0 | hu0
                    · subst hu0
                      rw [acquire_one_fst] at hp
                      exact absurd hp.1.symm ha
                    · exact Or.inr ⟨u, hu0, hp⟩

end Foedus

namespace Foedus

/-- The tracking pre-pass only rewrites owner addresses: storage ids,
log entries and MCS blocks survive it, in order. -/
theorem track_pre_pass_skel (senv : StorageEnv) (mem : Memory) :
    ∀ ws : List WriteXctAccess,
    ((track_pre_pass senv mem ws).2.map fun u => (u.storage_id, u.log_entry, u.mcs_block)) =
      ws.map fun u => (u.storage_id, u.log_entry, u.mcs_block) := by
  intro ws
  induction ws with
  | nil => rfl
  | cons w rest ih =>
    unfold track_pre_pass
    by_cases hm : (mem w.owner_id_address).is_moved = true
    · rw [if_pos hm]
      cases ht : senv.track_moved_record_write w.storage_id w with
      | none => simp
      | some a2 =>
        simp only [List.map_cons]
        rw [ih]
    · rw [if_neg hm]
      simp only [List.map_cons]
      rw [ih]

/-- Zero MCS blocks survive any list operation that preserves the
(storage id, log entry, MCS block) skeleton. -/
theorem all_mcs_zero_of_skel (l1 l2 : List WriteXctAccess)
    (hsk : (l2.map fun u => (u.storage_id, u.log_entry, u.mcs_block)) =
      l1.map fun u => (u.storage_id, u.log_entry, u.mcs_block))
    (h : ∀ u ∈ l1, u.mcs_block = 0) : ∀ u ∈ l2, u.mcs_block = 0 := by
  intro u hu
  have hm : (u.storage_id, u.log_entry, u.mcs_block) ∈
      l1.map fun u => (u.storage_id, u.log_entry, u.mcs_block) := by
    rw [hsk.symm]
    exact List.mem_map_of_mem _ hu
  rcases List.mem_map.mp hm with ⟨v, hv, hveq⟩
  have := h v hv
  have h3 : v.mcs_block = u.mcs_block := congrArg (fun p => p.2.2) hveq
  rw [h3] at this
  exact this

/-- The invariant of the whole Phase 1 retry loop, starting from a clean
state (no MCS blocks held, no key lock held): on a tracking failure or
fuel exhaustion everything is clean again; on success the MCS blocks sit
exactly at run-end entries and an owner word is locked exactly when some
resulting entry holds its lock. -/
theorem precommit_xct_lock_go_spec (fuel : Nat) :
    ∀ (senv : StorageEnv) (st : LockSt) (ws : List WriteXctAccess),
    (∀ u ∈ ws, u.mcs_block = 0) →
    (∀ a, (st.mem a).lock.locked = false) →
    ((precommit_xct_lock_go senv fuel st ws).1 = .trackFail →
      (∀ u ∈ (precommit_xct_lock_go senv fuel st ws).2.1, u.mcs_block = 0) ∧
      (∀ a, ((precommit_xct_lock_go senv fuel st ws).2.2.mem a).lock.locked = false)) ∧
    ((precommit_xct_lock_go senv fuel st ws).1 = .fuelOut →
      (∀ u ∈ (precommit_xct_lock_go senv fuel st ws).2.1, u.mcs_block = 0) ∧
      (∀ a, ((precommit_xct_lock_go senv fuel st ws).2.2.mem a).lock.locked = false)) ∧
    ((precommit_xct_lock_go senv fuel st ws).1 = .success →
      (∀ j, j < (precommit_xct_lock_go senv fuel st ws).2.1.length →
        (((precommit_xct_lock_go senv fuel st ws).2.1.getD j default).mcs_block ≠ 0 ↔
          next_differs (precommit_xct_lock_go senv fuel st ws).2.1 j)) ∧
      (∀ a, ((precommit_xct_lock_go senv fuel st ws).2.2.mem a).lock.locked = true ↔
        ∃ u ∈ (precommit_xct_lock_go senv fuel st ws).2.1,
          u.owner_id_address = a ∧ u.mcs_block ≠ 0)) := by
  induction fuel with
  | zero =>
    intro senv st ws hmcs hunlocked
    refine ⟨?_, ?_, ?_⟩
    · intro hc
      cases hc
    · intro _
      exact ⟨hmcs, hunlocked⟩
    · intro hc
      cases hc
  | succ fuel ih =>
    intro senv st ws hmcs hunlocked
    have hmcs1 : ∀ u ∈ (track_pre_pass senv st.mem ws).2, u.mcs_block = 0 :=
      all_mcs_zero_of_skel ws _ (track_pre_pass_skel senv st.mem ws) hmcs
    have hmcs2 : ∀ u ∈ sort_write_set (track_pre_pass senv st.mem ws).2, u.mcs_block = 0 :=
      fun u hu => hmcs1 u ((sort_write_set_perm _).mem_iff.mp hu)
    by_cases htrk : (track_pre_pass senv st.mem ws).1 = true
    · have hred : precommit_xct_lock_go senv (fuel + 1) st ws =
          (match lock_pass st 0 (sort_write_set (track_pre_pass senv st.mem ws).2) with
           | .done ws3 st2 => (.success, ws3, st2)
           | .retry ws3 st2 =>
             let u := precommit_xct_unlock st2 ws3
             precommit_xct_lock_go senv fuel u.2 u.1) := by
        conv_lhs => unfold precommit_xct_lock_go
        dsimp only
        rw [htrk]
        simp
      cases hlp : lock_pass st 0 (sort_write_set (track_pre_pass senv st.mem ws).2) with
      | done ws3 st2 =>
        rw [hlp] at hred
        obtain ⟨_, _, hmb, _, _, hlk⟩ :=
          lock_pass_done_spec _ st 0 ws3 st2 hmcs2 hlp
        rw [hred]
        refine ⟨?_, ?_, ?_⟩
        · intro hc
          cases hc
        · intro hc
          cases hc
        · intro _
          refine ⟨?_, ?_⟩
          · intro j hj
            have hj1 : j < (sort_write_set (track_pre_pass senv st.mem ws).2).length := by
              obtain ⟨hlen, _, _, _, _, _⟩ :=
                lock_pass_done_spec _ st 0 ws3 st2 hmcs2 hlp
              simp only at hj
              rw [hlen.symm]
              exact hj
            obtain ⟨hlen, hsk, _, _, _, _⟩ :=
              lock_pass_done_spec _ st 0 ws3 st2 hmcs2 hlp
            have hnd := next_differs_congr (sort_write_set (track_pre_pass senv st.mem ws).2)
              ws3 hlen (fun j => (hsk j).2.1)
            simp only
            rw [hmb j hj1, hnd j]
          · intro a
            simp only
            rw [hlk a, hunlocked a]
            simp
      | retry ws3 st2 =>
        rw [hlp] at hred
        obtain ⟨_, hlk⟩ := lock_pass_retry_spec _ st 0 ws3 st2 hmcs2 hlp
        obtain ⟨hu1, hu2, _, _⟩ := unlock_go_spec ws3 st2 0
        have hunlocked2 : ∀ a,
            ((precommit_xct_unlock st2 ws3).2.mem a).lock.locked = false := by
          intro a
          by_cases hl : ((precommit_xct_unlock st2 ws3).2.mem a).lock.locked = true
          · exfalso
            have h2 := (hu2 a).mp hl
            rcases (hlk a).mp h2.1 with hc | ⟨u, hu, hua, hub⟩
            · rw [hunlocked a] at hc
              cases hc
            · exact (h2.2 u hu) ⟨hua, hub⟩
          · simpa using hl
        have := ih senv (precommit_xct_unlock st2 ws3).2 (precommit_xct_unlock st2 ws3).1
          hu1 hunlocked2
        rw [hred]
        exact this
    · have hred : precommit_xct_lock_go senv (fuel + 1) st ws =
          (.trackFail, (track_pre_pass senv st.mem ws).2, st) := by
        conv_lhs => unfold precommit_xct_lock_go
        dsimp only
        simp only [Bool.not_eq_true] at htrk
        rw [htrk]
        simp
      rw [hred]
      refine ⟨?_, ?_, ?_⟩
      · intro _
        exact ⟨hmcs1, hunlocked⟩
      · intro hc
        cases hc
      · intro hc
        cases hc

end Foedus

namespace Foedus

/-- C2 witness: the concrete read-write transaction writing addresses
5, 3, 5 (so address 5 twice) exhibits all of the C2 properties. -/
theorem C2_lock_and_unlock_at_last_witness :
    ∃ ws2 st2,
      precommit_xct_lock_go sample_senv 1
        { mem := sample_mem, mcs_block_current := 0,
          max_xct_id := XctId.set kEpochInitialDurable 1, trace := [] }
        sample_xct_rw.write_set = (.success, ws2, st2) ∧
      ws2.Pairwise (fun u v => u.owner_id_address ≤ v.owner_id_address) ∧
      (∀ j, j < ws2.length →
        ((ws2.getD j default).mcs_block ≠ 0 ↔
          ∀ k, j < k → k < ws2.length →
            (ws2.getD k default).owner_id_address ≠ (ws2.getD j default).owner_id_address)) ∧
      (∀ a, st2.trace.countP (is_acquire_on a) = if a ∈ addrs_of ws2 then 1 else 0) ∧
      (∀ nid ndid mem tr j, j < ws2.length →
        (((apply_loop nid ndid none 0 mem tr ws2).2.2.drop tr.length).countP
            (is_finalize_at j) =
          if (ws2.getD j default).mcs_block ≠ 0 then 1 else 0) ∧
        (((apply_loop nid ndid none 0 mem tr ws2).2.2.drop tr.length).countP
            (is_release_at j) =
          if (ws2.getD j default).mcs_block ≠ 0 then 1 else 0)) :=
  C2_lock_and_unlock_at_last sample_senv 0 (sample_world_of sample_xct_rw)
    (fun _ => rfl) (by decide)

end Foedus

namespace Foedus

/-- precommit_xct_verify_readwrite only rewrites the read set: the world
it returns is the input with the read set replaced by the output of the
read-set loop. -/
theorem precommit_xct_verify_readwrite_world (senv : StorageEnv) (w : World) (mx : XctId) :
    (precommit_xct_verify_readwrite senv w mx).2.2 =
      { w with xct := { w.xct with
          read_set := (verify_read_set_readwrite senv w.mem mx w.xct.read_set).2.1 } } := by
  unfold precommit_xct_verify_readwrite
  dsimp only
  split
  · rfl
  · split
    · rfl
    · split
      · rfl
      · rfl

end Foedus

namespace Foedus

/-- When the MCS blocks of a world's write set sit exactly at run-end
entries and an owner is locked exactly when some entry holds its lock,
precommit_xct_apply leaves every write-set entry with mcs_block = 0 and
every owner lock released. -/
theorem precommit_xct_apply_clean (w : World) (mx : XctId) (ce : Epoch)
    (hmb : ∀ j, j < w.xct.write_set.length →
      ((w.xct.write_set.getD j default).mcs_block ≠ 0 ↔ next_differs w.xct.write_set j))
    (hlk : ∀ a, (w.mem a).lock.locked = true ↔
      ∃ u ∈ w.xct.write_set, u.owner_id_address = a ∧ u.mcs_block ≠ 0) :
    (∀ u ∈ (precommit_xct_apply w mx ce).1.xct.write_set, u.mcs_block = 0) ∧
    (∀ a, ((precommit_xct_apply w mx ce).1.mem a).lock.locked = false) := by
  have h1 := apply_loop_list_spec ((w.xct.issue_next_id mx ce).id.clear_status_bits)
      ((w.xct.issue_next_id mx ce).id.clear_status_bits.set_deleted) w.xct.write_set
      none 0 w.mem []
  have h2 := apply_loop_mem_spec ((w.xct.issue_next_id mx ce).id.clear_status_bits)
      ((w.xct.issue_next_id mx ce).id.clear_status_bits.set_deleted) w.xct.write_set
      none 0 w.mem []
  have hws : (precommit_xct_apply w mx ce).1.xct.write_set =
      (apply_loop ((w.xct.issue_next_id mx ce).id.clear_status_bits)
        ((w.xct.issue_next_id mx ce).id.clear_status_bits.set_deleted)
        none 0 w.mem [] w.xct.write_set).1 := rfl
  have hmem : (precommit_xct_apply w mx ce).1.mem =
      (apply_loop ((w.xct.issue_next_id mx ce).id.clear_status_bits)
        ((w.xct.issue_next_id mx ce).id.clear_status_bits.set_deleted)
        none 0 w.mem [] w.xct.write_set).2.1 := rfl
  constructor
  · rw [hws]
    have hlen : (apply_loop ((w.xct.issue_next_id mx ce).id.clear_status_bits)
        ((w.xct.issue_next_id mx ce).id.clear_status_bits.set_deleted)
        none 0 w.mem [] w.xct.write_set).1.length = w.xct.write_set.length := by
      have := congrArg List.length h1.2.1
      simpa using this
    intro u hu
    obtain ⟨j, hj, hju⟩ := List.mem_iff_getElem.mp hu
    have hj1 : j < w.xct.write_set.length := by
      rw [hlen] at hj
      exact hj
    have h4 := h1.2.2.2 j hj1
    rw [List.getD_eq_getElem _ default hj, hju] at h4
    by_cases hnd : next_differs w.xct.write_set j
    · rw [if_pos hnd] at h4
      exact h4
    · rw [if_neg hnd] at h4
      rw [h4]
      by_contra hne
      exact hnd ((hmb j hj1).mp hne)
  · intro a
    rw [hmem]
    by_cases ha : a ∈ addrs_of w.xct.write_set
    · exact (h2.2 a ha).1
    · rw [h2.1 a ha]
      cases hb : (w.mem a).lock.locked with
      | false => rfl
      | true =>
        exfalso
        obtain ⟨u, hu, hua, hub⟩ := (hlk a).mp hb
        exact ha (by unfold addrs_of; exact List.mem_map.mpr ⟨u, hu, hua⟩)

/-- When an owner is locked exactly when some write-set entry holds its
lock, precommit_xct_unlock leaves every entry with mcs_block = 0 and
every owner lock released. -/
theorem precommit_xct_unlock_clean (st : LockSt) (ws : List WriteXctAccess)
    (hlk : ∀ a, (st.mem a).lock.locked = true ↔
      ∃ u ∈ ws, u.owner_id_address = a ∧ u.mcs_block ≠ 0) :
    (∀ u ∈ (precommit_xct_unlock st ws).1, u.mcs_block = 0) ∧
    (∀ a, ((precommit_xct_unlock st ws).2.mem a).lock.locked = false) := by
  obtain ⟨h1, h2, _, _⟩ := unlock_go_spec ws st 0
  refine ⟨h1, ?_⟩
  intro a
  show ((unlock_go st 0 ws).2.mem a).lock.locked = false
  cases hb : ((unlock_go st 0 ws).2.mem a).lock.locked with
  | false => rfl
  | true =>
    exfalso
    obtain ⟨hl, hall⟩ := (h2 a).mp hb
    obtain ⟨u, hu, hua, hub⟩ := (hlk a).mp hl
    exact hall u hu ⟨hua, hub⟩

/-- Whenever precommit_xct_readwrite returns (commit, verification-abort
or tracking-abort), starting from a clean state, every write-set entry of
the returned world has mcs_block = 0 and every owner lock is released. -/
theorem precommit_xct_readwrite_clean (senv : StorageEnv) (fuel : Nat) (w : World)
    (ce0 : Epoch)
    (hmcs : ∀ u ∈ w.xct.write_set, u.mcs_block = 0)
    (hunlocked : ∀ a, (w.mem a).lock.locked = false) :
    ∀ b ce w2 tr, precommit_xct_readwrite senv fuel w ce0 = some (b, ce, w2, tr) →
      (∀ u ∈ w2.xct.write_set, u.mcs_block = 0) ∧
      (∀ a, (w2.mem a).lock.locked = false) := by
  intro b ce w2 tr hr
  cases hgo : precommit_xct_lock_go senv fuel
      { mem := w.mem, mcs_block_current := w.xct.mcs_block_current,
        max_xct_id := XctId.set kEpochInitialDurable 1, trace := [] } w.xct.write_set with
  | mk o p =>
  cases p with
  | mk ws1 st1 =>
  have hspec := precommit_xct_lock_go_spec fuel senv
      { mem := w.mem, mcs_block_current := w.xct.mcs_block_current,
        max_xct_id := XctId.set kEpochInitialDurable 1, trace := [] } w.xct.write_set
      hmcs hunlocked
  rw [hgo] at hspec
  dsimp only at hspec
  unfold precommit_xct_readwrite at hr
  dsimp only at hr
  rw [hgo] at hr
  dsimp only at hr
  cases o with
  | fuelOut => cases hr
  | trackFail =>
    obtain ⟨hA, hB⟩ := hspec.1 rfl
    simp only [Option.some.injEq, Prod.mk.injEq] at hr
    obtain ⟨hb, hce, hw2, htr⟩ := hr
    subst hw2
    exact ⟨hA, hB⟩
  | success =>
    obtain ⟨hmb, hlk⟩ := hspec.2.2 rfl
    dsimp only at hr
    have hvw := precommit_xct_verify_readwrite_world senv
      { w with mem := st1.mem,
               xct := { w.xct with write_set := ws1,
                                   mcs_block_current := st1.mcs_block_current } }
      st1.max_xct_id
    rw [hvw] at hr
    dsimp only at hr
    by_cases hv : (precommit_xct_verify_readwrite senv
        { w with mem := st1.mem,
                 xct := { w.xct with write_set := ws1,
                                     mcs_block_current := st1.mcs_block_current } }
        st1.max_xct_id).1 = true
    · rw [if_pos hv] at hr
      simp only [Option.some.injEq, Prod.mk.injEq] at hr
      obtain ⟨hb, hce, hw2, htr⟩ := hr
      subst hw2
      dsimp only
      exact ⟨(precommit_xct_apply_clean _ _ _ hmb hlk).1,
             (precommit_xct_apply_clean _ _ _ hmb hlk).2⟩
    · rw [if_neg hv] at hr
      simp only [Option.some.injEq, Prod.mk.injEq] at hr
      obtain ⟨hb, hce, hw2, htr⟩ := hr
      subst hw2
      dsimp only
      have hcl := precommit_xct_unlock_clean
        { mem := st1.mem, mcs_block_current := st1.mcs_block_current,
          max_xct_id := (precommit_xct_verify_readwrite senv
            { w with mem := st1.mem,
                     xct := { w.xct with write_set := ws1,
                                         mcs_block_current := st1.mcs_block_current } }
            st1.max_xct_id).2.1,
          trace := st1.trace } ws1 hlk
      exact ⟨hcl.1, hcl.2⟩

end Foedus

namespace Foedus

/-- C10: when precommit_xct returns on a read-write transaction,
regardless of whether it returned ok or xctRaceAbort, every write-set
entry's mcs_block is 0 and every MCS key lock acquired during Phase 1
has been released (all owner locks are free again), via
precommit_xct_apply on the commit path and precommit_xct_unlock on the
verification-failure path. -/
theorem C10_locks_released (senv : StorageEnv) (lenv : LogEnv) (fuel : Nat)
    (w : World) (ce0 : Epoch)
    (hro : w.xct.is_read_only = false)
    (hmcs : ∀ u ∈ w.xct.write_set, u.mcs_block = 0)
    (hunlocked : ∀ a, (w.mem a).lock.locked = false)
    (r : ErrorCode × Epoch × World × List Ev)
    (hr : precommit_xct senv lenv fuel w ce0 = some r) :
    (∀ u ∈ r.2.2.1.xct.write_set, u.mcs_block = 0) ∧
    (∀ a, (r.2.2.1.mem a).lock.locked = false) := by
  unfold precommit_xct at hr
  by_cases hact : w.xct.is_active = true
  · rw [hact] at hr
    simp only [Bool.not_true] at hr
    rw [if_neg (by simp)] at hr
    have hatt : precommit_xct_attempt senv lenv fuel w ce0 =
        precommit_xct_readwrite senv fuel w ce0 := by
      unfold precommit_xct_attempt
      rw [hro]
      simp
    rw [hatt] at hr
    cases hrw : precommit_xct_readwrite senv fuel w ce0 with
    | none =>
      rw [hrw] at hr
      cases hr
    | some q =>
      obtain ⟨s, ce, w2, tr⟩ := q
      rw [hrw] at hr
      dsimp only at hr
      obtain ⟨hA, hB⟩ :=
        precommit_xct_readwrite_clean senv fuel w ce0 hmcs hunlocked s ce w2 tr hrw
      by_cases hs : s = true
      · rw [if_pos hs] at hr
        simp only [Option.some.injEq] at hr
        subst hr
        exact ⟨hA, hB⟩
      · rw [if_neg hs] at hr
        simp only [Option.some.injEq] at hr
        subst hr
        exact ⟨hA, hB⟩
  · rw [Bool.not_eq_true] at hact
    rw [hact] at hr
    rw [if_pos Bool.not_false] at hr
    simp only [Option.some.injEq] at hr
    subst hr
    exact ⟨hmcs, hunlocked⟩

/-- With no MOVED records the lock phase succeeds at its first pass, so
precommit_xct_readwrite with positive fuel always returns a result. -/
theorem precommit_xct_readwrite_isSome (senv : StorageEnv) (fuel : Nat) (w : World)
    (ce0 : Epoch) (hmoved : ∀ a, (w.mem a).is_moved = false) :
    (precommit_xct_readwrite senv (fuel + 1) w ce0).isSome = true := by
  set st0 : LockSt :=
    { mem := w.mem
      mcs_block_current := w.xct.mcs_block_current
      max_xct_id := XctId.set kEpochInitialDurable 1
      trace := [] } with hst0
  obtain ⟨ws2, st2, hdone⟩ :=
    lock_pass_no_moved_done (sort_write_set w.xct.write_set) st0 0 hmoved
  have hgo : precommit_xct_lock_go senv (fuel + 1) st0 w.xct.write_set =
      (.success, ws2, st2) := by
    unfold precommit_xct_lock_go
    rw [track_pre_pass_no_moved senv st0.mem hmoved w.xct.write_set]
    simp only [Bool.not_true, Bool.false_eq_true, if_false]
    rw [hdone]
  unfold precommit_xct_readwrite
  dsimp only
  rw [hgo]
  dsimp only
  split
  · rfl
  · rfl

/-- With no MOVED records precommit_xct_attempt with positive fuel always
returns a result (the read-only path never runs out of fuel at all). -/
theorem precommit_xct_attempt_isSome (senv : StorageEnv) (lenv : LogEnv) (fuel : Nat)
    (w : World) (ce0 : Epoch) (hmoved : ∀ a, (w.mem a).is_moved = false) :
    (precommit_xct_attempt senv lenv (fuel + 1) w ce0).isSome = true := by
  unfold precommit_xct_attempt
  by_cases hro : w.xct.is_read_only = true
  · rw [if_pos hro]
    rfl
  · rw [if_neg hro]
    exact precommit_xct_readwrite_isSome senv fuel w ce0 hmoved

/-- With no MOVED records precommit_xct with positive fuel always returns
a result. -/
theorem precommit_xct_isSome (senv : StorageEnv) (lenv : LogEnv) (fuel : Nat)
    (w : World) (ce0 : Epoch) (hmoved : ∀ a, (w.mem a).is_moved = false) :
    (precommit_xct senv lenv (fuel + 1) w ce0).isSome = true := by
  unfold precommit_xct
  by_cases hact : w.xct.is_active = true
  · rw [hact]
    simp only [Bool.not_true]
    rw [if_neg (by simp)]
    have hs := precommit_xct_attempt_isSome senv lenv fuel w ce0 hmoved
    cases hatt : precommit_xct_attempt senv lenv (fuel + 1) w ce0 with
    | none =>
      rw [hatt] at hs
      cases hs
    | some q =>
      obtain ⟨sx, ce, w2, tr⟩ := q
      dsimp only
      split
      · rfl
      · rfl
  · rw [Bool.not_eq_true] at hact
    rw [hact]
    rw [if_pos Bool.not_false]
    rfl

/-- C10 witness: the concrete read-write transaction writing addresses
5, 3, 5 commits and returns with all MCS blocks zero and all owner locks
released. -/
theorem C10_locks_released_witness :
    (sample_world_of sample_xct_rw).xct.is_read_only = false ∧
    ∃ r, precommit_xct sample_senv sample_lenv 1 (sample_world_of sample_xct_rw)
        ⟨5⟩ = some r ∧
      (∀ u ∈ r.2.2.1.xct.write_set, u.mcs_block = 0) ∧
      (∀ a, (r.2.2.1.mem a).lock.locked = false) := by
  refine ⟨rfl, ?_⟩
  cases hr : precommit_xct sample_senv sample_lenv 1 (sample_world_of sample_xct_rw)
      ⟨5⟩ with
  | none =>
    exfalso
    have hsome : (precommit_xct sample_senv sample_lenv 1
        (sample_world_of sample_xct_rw) ⟨5⟩).isSome = true :=
      precommit_xct_isSome sample_senv sample_lenv 0 (sample_world_of sample_xct_rw)
        ⟨5⟩ (fun _ => rfl)
    rw [hr] at hsome
    cases hsome
  | some r =>
    exact ⟨r, rfl,
      C10_locks_released sample_senv sample_lenv 1 (sample_world_of sample_xct_rw)
        ⟨5⟩ rfl (by decide) (fun _ => rfl) r hr⟩

end Foedus

namespace Foedus

/-- C3: precommit_xct with no active transaction returns xctNoXct and
leaves the world unchanged; with an active transaction the returned
context is deactivated and the result is ok exactly when the commit
attempt (verification) succeeded and xctRaceAbort exactly when it
failed. -/
theorem C3_precommit_xct_outcomes (senv : StorageEnv) (lenv : LogEnv) (fuel : Nat)
    (w : World) (ce0 : Epoch)
    (r : ErrorCode × Epoch × World × List Ev)
    (hr : precommit_xct senv lenv fuel w ce0 = some r) :
    (w.xct.is_active = false → r.1 = .xctNoXct ∧ r.2.2.1 = w) ∧
    (w.xct.is_active = true →
      r.2.2.1.xct.is_active = false ∧
      ∃ s ce w2 tr,
        precommit_xct_attempt senv lenv fuel w ce0 = some (s, ce, w2, tr) ∧
        (r.1 = .ok ↔ s = true) ∧
        (r.1 = .xctRaceAbort ↔ s = false)) := by
  constructor
  · intro hact
    unfold precommit_xct at hr
    rw [hact, if_pos Bool.not_false] at hr
    simp only [Option.some.injEq] at hr
    subst hr
    exact ⟨rfl, rfl⟩
  · intro hact
    unfold precommit_xct at hr
    rw [hact] at hr
    simp only [Bool.not_true] at hr
    rw [if_neg (by simp)] at hr
    cases hatt : precommit_xct_attempt senv lenv fuel w ce0 with
    | none =>
      rw [hatt] at hr
      cases hr
    | some q =>
      obtain ⟨s, ce, w2, tr⟩ := q
      rw [hatt] at hr
      dsimp only at hr
      by_cases hs : s = true
      · rw [if_pos hs] at hr
        simp only [Option.some.injEq] at hr
        subst hr
        subst hs
        refine ⟨rfl, true, ce, w2, tr, rfl, ?_, ?_⟩
        · exact ⟨fun _ => rfl, fun _ => rfl⟩
        · constructor
          · intro hc
            cases hc
          · intro hc
            cases hc
      · rw [if_neg hs] at hr
        simp only [Option.some.injEq] at hr
        subst hr
        rw [Bool.not_eq_true] at hs
        subst hs
        refine ⟨rfl, false, ce, w2, tr, rfl, ?_, ?_⟩
        · constructor
          · intro hc
            cases hc
          · intro hc
            cases hc
        · exact ⟨fun _ => rfl, fun _ => rfl⟩

/-- C3 witness: on an inactive context precommit_xct returns xctNoXct and
the unchanged world. -/
theorem C3_precommit_xct_outcomes_witness :
    (sample_world_of sample_xct_inactive).xct.is_active = false ∧
    ∃ r, precommit_xct sample_senv sample_lenv 1
        (sample_world_of sample_xct_inactive) ⟨5⟩ = some r ∧
      r.1 = .xctNoXct ∧ r.2.2.1 = sample_world_of sample_xct_inactive := by
  refine ⟨rfl, ?_⟩
  cases hr : precommit_xct sample_senv sample_lenv 1
      (sample_world_of sample_xct_inactive) ⟨5⟩ with
  | none =>
    exfalso
    have hsome : (precommit_xct sample_senv sample_lenv 1
        (sample_world_of sample_xct_inactive) ⟨5⟩).isSome = true :=
      precommit_xct_isSome sample_senv sample_lenv 0
        (sample_world_of sample_xct_inactive) ⟨5⟩ (fun _ => rfl)
    rw [hr] at hsome
    cases hsome
  | some r =>
    have h := (C3_precommit_xct_outcomes sample_senv sample_lenv 1
      (sample_world_of sample_xct_inactive) ⟨5⟩ r hr).1 rfl
    exact ⟨r, rfl, h.1, h.2⟩

end Foedus

namespace Foedus

/-- A read-only transaction (empty write sets) whose pointer set observed
word 5 at address 0, while the world's current pointer word there is 0:
pointer verification fails. -/
def sample_xct_ro_ptr : Xct :=
  { sample_xct_inactive with
      active := true
      pointer_set := [{ address := 0, observed_word := 5 }] }

/-- A read-only transaction with empty access sets altogether. -/
def sample_xct_ro : Xct := { sample_xct_inactive with active := true }

/-- C9: whenever precommit_xct returns xctRaceAbort, the uncommitted tail
of the thread log buffer has been discarded (discard_current_xct_log),
so offset_tail equals offset_committed — the state a fresh begin_xct
requires. -/
theorem C9_race_abort_discards_log (senv : StorageEnv) (lenv : LogEnv) (fuel : Nat)
    (w : World) (ce0 : Epoch)
    (r : ErrorCode × Epoch × World × List Ev)
    (hr : precommit_xct senv lenv fuel w ce0 = some r)
    (habort : r.1 = .xctRaceAbort) :
    r.2.2.1.log_buffer.offset_tail = r.2.2.1.log_buffer.offset_committed := by
  unfold precommit_xct at hr
  by_cases hact : w.xct.is_active = true
  · rw [hact] at hr
    simp only [Bool.not_true] at hr
    rw [if_neg (by simp)] at hr
    cases hatt : precommit_xct_attempt senv lenv fuel w ce0 with
    | none =>
      rw [hatt] at hr
      cases hr
    | some q =>
      obtain ⟨s, ce, w2, tr⟩ := q
      rw [hatt] at hr
      dsimp only at hr
      by_cases hs : s = true
      · rw [if_pos hs] at hr
        simp only [Option.some.injEq] at hr
        subst hr
        cases habort
      · rw [if_neg hs] at hr
        simp only [Option.some.injEq] at hr
        subst hr
        rfl
  · rw [Bool.not_eq_true] at hact
    rw [hact, if_pos Bool.not_false] at hr
    simp only [Option.some.injEq] at hr
    subst hr
    cases habort

/-- C9 witness: the read-only transaction with a stale pointer-set entry
aborts with xctRaceAbort and its log-buffer tail is back at the committed
offset. -/
theorem C9_race_abort_discards_log_witness :
    ∃ r, precommit_xct sample_senv sample_lenv 1
        (sample_world_of sample_xct_ro_ptr) ⟨5⟩ = some r ∧
      r.1 = .xctRaceAbort ∧
      r.2.2.1.log_buffer.offset_tail = r.2.2.1.log_buffer.offset_committed := by
  cases hr : precommit_xct sample_senv sample_lenv 1
      (sample_world_of sample_xct_ro_ptr) ⟨5⟩ with
  | none =>
    exfalso
    have hsome : (precommit_xct sample_senv sample_lenv 1
        (sample_world_of sample_xct_ro_ptr) ⟨5⟩).isSome = true :=
      precommit_xct_isSome sample_senv sample_lenv 0
        (sample_world_of sample_xct_ro_ptr) ⟨5⟩ (fun _ => rfl)
    rw [hr] at hsome
    cases hsome
  | some r =>
    have hmap : (precommit_xct sample_senv sample_lenv 1
        (sample_world_of sample_xct_ro_ptr) ⟨5⟩).map (fun q => q.1) =
        some ErrorCode.xctRaceAbort := by decide
    rw [hr] at hmap
    simp only [Option.map_some', Option.some.injEq] at hmap
    exact ⟨r, rfl, hmap,
      C9_race_abort_discards_log sample_senv sample_lenv 1
        (sample_world_of sample_xct_ro_ptr) ⟨5⟩ r hr hmap⟩

end Foedus

namespace Foedus

/-- C4, counterexample: a read-only transaction whose read set is EMPTY
does not always succeed — with a stale pointer-set entry (observed word 5
at address 0 while the current word is 0) precommit_xct returns
xctRaceAbort, refuting the claim that an empty read set implies success
with commit_epoch = durable_global_epoch. -/
theorem C4_counterexample :
    (sample_world_of sample_xct_ro_ptr).xct.is_read_only = true ∧
    (sample_world_of sample_xct_ro_ptr).xct.read_set = [] ∧
    (precommit_xct sample_senv sample_lenv 1 (sample_world_of sample_xct_ro_ptr)
        ⟨5⟩).map (fun q => q.1) = some ErrorCode.xctRaceAbort := by
  refine ⟨rfl, rfl, by decide⟩

/-- On a fully successful pass, the read-set loop of
precommit_xct_verify_readonly accumulates exactly the fold of
Epoch.store_max over the observed owner-id epochs. -/
theorem verify_read_set_readonly_epoch (senv : StorageEnv) (mem : Memory) :
    ∀ (rs : List XctAccess) (ce : Epoch),
    (verify_read_set_readonly senv mem ce rs).1 = true →
    (verify_read_set_readonly senv mem ce rs).2.2 =
      rs.foldl (fun e a => e.store_max a.observed_owner_id.epoch) ce := by
  intro rs
  induction rs with
  | nil =>
    intro ce _
    rfl
  | cons a rest ih =>
    intro ce hok
    simp only [verify_read_set_readonly] at hok ⊢
    by_cases hm : (mem a.owner_id_address).is_moved = true
    · rw [if_pos hm] at hok ⊢
      by_cases hne : ({ a with owner_id_address :=
            senv.track_moved_record_read a.storage_id a.owner_id_address } :
          XctAccess).observed_owner_id ≠
          (mem (senv.track_moved_record_read a.storage_id a.owner_id_address)).xct_id
      · rw [if_pos hne] at hok
        cases hok
      · rw [if_neg hne] at hok ⊢
        dsimp only at hok ⊢
        rw [List.foldl_cons]
        exact ih (ce.store_max a.observed_owner_id.epoch) hok
    · rw [if_neg hm] at hok ⊢
      by_cases hne : a.observed_owner_id ≠ (mem a.owner_id_address).xct_id
      · rw [if_pos hne] at hok
        cases hok
      · rw [if_neg hne] at hok ⊢
        dsimp only at hok ⊢
        rw [List.foldl_cons]
        exact ih (ce.store_max a.observed_owner_id.epoch) hok

end Foedus

namespace Foedus

/-- When read-only verification succeeds, the commit epoch it returns is
the fold of Epoch.store_max over the observed owner-id epochs of the read
set, with the durable global epoch substituted when that accumulated
epoch is still invalid. -/
theorem precommit_xct_verify_readonly_epoch (senv : StorageEnv) (lenv : LogEnv)
    (w : World)
    (hok : (precommit_xct_verify_readonly senv lenv w Epoch.invalid).1 = true) :
    (precommit_xct_verify_readonly senv lenv w Epoch.invalid).2.1 =
      (if !(w.xct.read_set.foldl
            (fun e a => e.store_max a.observed_owner_id.epoch) Epoch.invalid).is_valid
       then lenv.durable_global_epoch
       else w.xct.read_set.foldl
            (fun e a => e.store_max a.observed_owner_id.epoch) Epoch.invalid) := by
  unfold precommit_xct_verify_readonly at hok ⊢
  dsimp only at hok ⊢
  by_cases h1 : (verify_read_set_readonly senv w.mem Epoch.invalid w.xct.read_set).1
      = true
  · have hfold := verify_read_set_readonly_epoch senv w.mem w.xct.read_set
      Epoch.invalid h1
    rw [h1] at hok ⊢
    simp only [Bool.not_true, Bool.false_eq_true, if_false] at hok ⊢
    rw [hfold]
    split
    · rfl
    · split
      · rfl
      · rfl
  · rw [Bool.not_eq_true] at h1
    rw [h1] at hok
    simp only [Bool.not_false, if_true] at hok
    cases hok

end Foedus

namespace Foedus

/-- C4 (amended): when precommit_xct succeeds on a read-only transaction,
the output commit epoch is the fold of Epoch.store_max over the observed
owner-id epochs of the read set, with the durable global epoch
substituted whenever that accumulated epoch is invalid — in particular an
empty read set yields the durable global epoch.  (Success additionally
requires the pointer-set and page-version-set checks to pass, as the C4
counterexample shows.) -/
theorem C4_readonly_commit_epoch (senv : StorageEnv) (lenv : LogEnv) (fuel : Nat)
    (w : World) (ce0 : Epoch)
    (hro : w.xct.is_read_only = true)
    (r : ErrorCode × Epoch × World × List Ev)
    (hr : precommit_xct senv lenv fuel w ce0 = some r)
    (hok : r.1 = .ok) :
    r.2.1 = (if !(w.xct.read_set.foldl
          (fun e a => e.store_max a.observed_owner_id.epoch) Epoch.invalid).is_valid
        then lenv.durable_global_epoch
        else w.xct.read_set.foldl
          (fun e a => e.store_max a.observed_owner_id.epoch) Epoch.invalid) ∧
    (w.xct.read_set = [] → r.2.1 = lenv.durable_global_epoch) := by
  have hmain : r.2.1 = (if !(w.xct.read_set.foldl
        (fun e a => e.store_max a.observed_owner_id.epoch) Epoch.invalid).is_valid
      then lenv.durable_global_epoch
      else w.xct.read_set.foldl
        (fun e a => e.store_max a.observed_owner_id.epoch) Epoch.invalid) := by
    unfold precommit_xct at hr
    by_cases hact : w.xct.is_active = true
    · rw [hact] at hr
      simp only [Bool.not_true] at hr
      rw [if_neg (by simp)] at hr
      have hatt : precommit_xct_attempt senv lenv fuel w ce0 =
          some ((precommit_xct_readonly senv lenv w).1,
                (precommit_xct_readonly senv lenv w).2.1,
                (precommit_xct_readonly senv lenv w).2.2, []) := by
        unfold precommit_xct_attempt
        rw [if_pos hro]
      rw [hatt] at hr
      dsimp only at hr
      by_cases hs : (precommit_xct_readonly senv lenv w).1 = true
      · rw [if_pos hs] at hr
        simp only [Option.some.injEq] at hr
        subst hr
        exact precommit_xct_verify_readonly_epoch senv lenv w hs
      · rw [if_neg hs] at hr
        simp only [Option.some.injEq] at hr
        subst hr
        cases hok
    · rw [Bool.not_eq_true] at hact
      rw [hact, if_pos Bool.not_false] at hr
      simp only [Option.some.injEq] at hr
      subst hr
      cases hok
  refine ⟨hmain, ?_⟩
  intro hempty
  rw [hmain, hempty]
  rfl

/-- C4 witness: the read-only transaction with all access sets empty
commits with commit_epoch equal to the durable global epoch (7). -/
theorem C4_readonly_commit_epoch_witness :
    (sample_world_of sample_xct_ro).xct.is_read_only = true ∧
    ∃ r, precommit_xct sample_senv sample_lenv 1 (sample_world_of sample_xct_ro)
        ⟨5⟩ = some r ∧
      r.1 = .ok ∧ r.2.1 = sample_lenv.durable_global_epoch := by
  refine ⟨rfl, ?_⟩
  cases hr : precommit_xct sample_senv sample_lenv 1 (sample_world_of sample_xct_ro)
      ⟨5⟩ with
  | none =>
    exfalso
    have hsome : (precommit_xct sample_senv sample_lenv 1
        (sample_world_of sample_xct_ro) ⟨5⟩).isSome = true :=
      precommit_xct_isSome sample_senv sample_lenv 0
        (sample_world_of sample_xct_ro) ⟨5⟩ (fun _ => rfl)
    rw [hr] at hsome
    cases hsome
  | some r =>
    have hmap : (precommit_xct sample_senv sample_lenv 1
        (sample_world_of sample_xct_ro) ⟨5⟩).map (fun q => q.1) =
        some ErrorCode.ok := by decide
    rw [hr] at hmap
    simp only [Option.map_some', Option.some.injEq] at hmap
    have h := C4_readonly_commit_epoch sample_senv sample_lenv 1
      (sample_world_of sample_xct_ro) ⟨5⟩ rfl r hr hmap
    exact ⟨r, rfl, hmap, h.2 rfl⟩

end Foedus
